import Mathlib

/-!
# Verification of the eldroid-ssg component rendering engine and watch pipeline

This development gives a shallow embedding, in Lean, of the core algorithms of
the eldroid-ssg static-site generator:

* `src/html.rs` — the recursive component expansion engine
  (`HtmlGenerator::generate_html` / `load_component` / `find_component_file`),
  embedded as fuel-indexed total functions over `List Char` strings, with the
  component-tag regular expression implemented as an explicit leftmost matcher
  and the filesystem abstracted as a finite map of readable files plus the
  ordered file list produced by the `walkdir` fallback scan;
* `src/watcher.rs` — the dev-server watcher callback (debounce, event
  classification, publication of `FileChange` values);
* `src/main.rs` — the batch build orchestration of `process_files`
  (per-file job outcomes, error aggregation, site-wide SEO generation).

Strings are modelled as `List Char` so that every definition is executable by
kernel reduction.  Machine clock instants are modelled as natural-number
milliseconds; `Instant::duration_since` saturates at zero exactly as natural
subtraction does.
-/

/-- Strings of the Rust program, modelled as lists of characters. -/
abbrev Str := List Char

/-! ## Basic string utilities mirroring Rust `str` operations -/

/-- The test `beginsWith pat s` is true when `pat` is a prefix of `s`
(Rust's `str::starts_with` on the candidate position of a scan). -/
def beginsWith : Str → Str → Bool
  | [], _ => true
  | _ :: _, [] => false
  | p :: ps, c :: cs => decide (c = p) && beginsWith ps cs

/-- Non-overlapping left-to-right replacement of every occurrence of `pat`
by `rep`, the semantics of Rust's `str::replace`.  The natural-number bound
is an explicit structural-recursion budget; `replaceAll` instantiates it with
the length of the subject string, which always suffices. -/
def replaceAllAux : Nat → Str → Str → Str → Str
  | 0, _, _, s => s
  | n + 1, pat, rep, s =>
    match s with
    | [] => []
    | c :: cs =>
      if beginsWith pat (c :: cs) && !pat.isEmpty then
        rep ++ replaceAllAux n pat rep ((c :: cs).drop pat.length)
      else
        c :: replaceAllAux n pat rep cs

/-- Rust `str::replace`: replace all non-overlapping occurrences of `pat`
in `s` by `rep`, scanning left to right. -/
def replaceAll (pat rep s : Str) : Str :=
  replaceAllAux s.length pat rep s

/-- The test `containsSubstr s pat` is true when `pat` occurs as a contiguous substring
of `s` (Rust's `str::contains`). -/
def containsSubstr : Str → Str → Bool
  | s, pat =>
    match s with
    | [] => pat.isEmpty
    | _ :: cs => beginsWith pat s || containsSubstr cs pat

/-- Count of non-overlapping occurrences of `pat` in a string, scanning left
to right with an explicit structural budget. -/
def countOccurAux : Nat → Str → Str → Nat
  | 0, _, _ => 0
  | n + 1, pat, s =>
    match s with
    | [] => 0
    | c :: cs =>
      if beginsWith pat (c :: cs) && !pat.isEmpty then
        1 + countOccurAux n pat ((c :: cs).drop pat.length)
      else
        countOccurAux n pat cs

/-- Count of non-overlapping occurrences of `pat` in `s`. -/
def countOccur (s pat : Str) : Nat := countOccurAux s.length pat s

/-- Number of quote characters (`"` or `'`) in a string.  Used as part of the
termination measure for the renderer: every component tag contains exactly two
quote characters, and the diagnostic comments that replace unresolvable or
circular tags contain none. -/
def countQ : Str → Nat
  | [] => 0
  | c :: cs => (if c = '"' ∨ c = '\'' then 1 else 0) + countQ cs

/-! ## The component tag pattern

`src/html.rs` matches component tags with the compiled regular expression
`<component\s+name=["']([^"']+)["']\s*/>` and always takes the leftmost
match.  The pattern is deterministic — each quantified class is disjoint from
the token that follows it — so it is faithfully implemented by maximal-munch
scanning, with no backtracking. -/

/-- Whitespace class of the `\s` escape, restricted to its ASCII members. -/
def isWs (c : Char) : Bool :=
  decide (c = ' ') || decide (c = '\t') || decide (c = '\n') ||
  decide (c = '\r') || decide (c = '\x0b') || decide (c = '\x0c')

/-- A quote character, i.e. a member of the regex class `["']`. -/
def isQuote (c : Char) : Bool := decide (c = '"') || decide (c = '\'')

/-- A character allowed inside the component-name capture, regex class `[^"']`. -/
def notQuote (c : Char) : Bool := !isQuote c

/-- Match a literal token at the head of the input, returning the rest. -/
def matchLit : Str → Str → Option Str
  | [], s => some s
  | _ :: _, [] => none
  | p :: ps, c :: cs => if c = p then matchLit ps cs else none

/-- Split off the maximal prefix whose characters satisfy `p`. -/
def spanWhile (p : Char → Bool) : Str → Str × Str
  | [] => ([], [])
  | c :: cs =>
    if p c then
      let r := spanWhile p cs
      (c :: r.1, r.2)
    else
      ([], c :: cs)

/-- Attempt to match the component-tag pattern at the start of `s`.  On
success returns the full matched text (capture group 0) and the component
name (capture group 1). -/
def matchTagAt (s : Str) : Option (Str × Str) :=
  match matchLit "<component".data s with
  | none => none
  | some r1 =>
    let ws1 := (spanWhile isWs r1).1
    let r2 := (spanWhile isWs r1).2
    if ws1.isEmpty then none
    else
      match matchLit "name=".data r2 with
      | none => none
      | some r3 =>
        match r3 with
        | [] => none
        | q1 :: r4 =>
          if isQuote q1 then
            let nm := (spanWhile notQuote r4).1
            let r5 := (spanWhile notQuote r4).2
            if nm.isEmpty then none
            else
              match r5 with
              | [] => none
              | q2 :: r6 =>
                if isQuote q2 then
                  let ws2 := (spanWhile isWs r6).1
                  let r7 := (spanWhile isWs r6).2
                  match matchLit "/>".data r7 with
                  | none => none
                  | some _ =>
                    some ("<component".data ++ ws1 ++ "name=".data ++
                          q1 :: nm ++ q2 :: ws2 ++ "/>".data, nm)
                else none
          else none

/-- Leftmost match of the component-tag pattern anywhere in the input, the
semantics of `Regex::captures` in the renderer's loop.  Returns the full
matched text and the captured component name. -/
def findTag : Str → Option (Str × Str)
  | [] => none
  | c :: cs =>
    match matchTagAt (c :: cs) with
    | some v => some v
    | none => findTag cs


/-! ## Path manipulation (`std::path` operations used by `src/html.rs`) -/

/-- Function `normalize_component_name` in `src/html.rs`: unify path separators by
replacing every backslash with a forward slash. -/
def normalizeComponentName (name : Str) : Str :=
  name.map (fun c => if c = '\\' then '/' else c)

/-- Function `resolve_component_path` in `src/html.rs`: root-anchored names resolve
against the components root with the leading separator stripped; otherwise a
present current component directory takes precedence over the root. -/
def resolveComponentPath (baseDir : Str) (currentComponentDir : Option Str)
    (componentName : Str) : Str :=
  let normalizedName := normalizeComponentName componentName
  if normalizedName.head? = some '/' then
    baseDir ++ '/' :: normalizedName.drop 1
  else
    match currentComponentDir with
    | some currentDir => currentDir ++ '/' :: normalizedName
    | none => baseDir ++ '/' :: normalizedName

/-- The final path component (Rust `Path::file_name`, as a plain string):
everything after the last `/`. -/
def fileNameOf (p : Str) : Str :=
  (p.reverse.takeWhile (fun c => !decide (c = '/'))).reverse

/-- Rust `Path::file_stem` of a file path: the file name up to (not
including) its last dot, except that a dot in the leading position does not
split (so a dotfile is its own stem) and a dotless name is its own stem. -/
def fileStemOf (p : Str) : Str :=
  let n := fileNameOf p
  let revAfter := n.reverse.takeWhile (fun c => !decide (c = '.'))
  if revAfter.length = n.length then n
  else
    let pre := n.take (n.length - revAfter.length - 1)
    if pre.isEmpty then n else pre

/-- Rust `Path::extension`: the part of the file name after its last dot,
provided the dot exists and is not the leading character. -/
def pathExtension (p : Str) : Option Str :=
  let n := fileNameOf p
  let revAfter := n.reverse.takeWhile (fun c => !decide (c = '.'))
  if revAfter.length = n.length then none
  else if revAfter.length + 1 = n.length then none
  else some revAfter.reverse

/-- Rust `Path::parent` as used by `load_component`: the path with its final
component removed.  `none` for the empty path and for the filesystem root;
a bare file name has parent `""`. -/
def parentDir (p : Str) : Option Str :=
  if p = [] then none
  else if p = ['/'] then none
  else
    let upTo := (p.reverse.dropWhile (fun c => !decide (c = '/'))).reverse
    if upTo = [] then some []
    else if upTo = ['/'] then some ['/']
    else some upTo.dropLast

/-- ASCII lowercasing of one character. -/
def toLowerAscii (c : Char) : Char :=
  if 'A' ≤ c ∧ c ≤ 'Z' then Char.ofNat (c.toNat + 32) else c

/-- Rust `str::eq_ignore_ascii_case`. -/
def eqIgnoreCase (a b : Str) : Bool :=
  decide (a.map toLowerAscii = b.map toLowerAscii)


/-! ## The filesystem abstraction

`find_component_file` interrogates the real filesystem twice: an existence
probe for the exact resolved path with `.html` appended, and a fallback
`walkdir` scan of the whole components tree comparing file stems
case-insensitively.  The model carries the finite association list of
readable files (path, contents) — `Path::exists` holds exactly of these, and
`fs::read_to_string` returns the stored contents — plus the ordered list of
file entries the `walkdir` traversal of the components directory yields. -/

structure FS where
  files : List (Str × Str)
  walkEntries : List Str

/-- First-match association-list lookup (`HashMap::get`). -/
def lookupAssoc {α : Type} : List (Str × α) → Str → Option α
  | [], _ => none
  | (k, v) :: rest, key => if k = key then some v else lookupAssoc rest key

/-- Rust `HashMap::insert`: the new binding shadows any previous one. -/
def insertAssoc {α : Type} (m : List (Str × α)) (k : Str) (v : α) :
    List (Str × α) :=
  (k, v) :: m

/-- Rust `fs::read_to_string`, abstracted: the contents of a readable file. -/
def readFS (fs : FS) (p : Str) : Option Str := lookupAssoc fs.files p

/-- Rust `Path::exists`, abstracted: true exactly of the readable files. -/
def existsFS (fs : FS) (p : Str) : Bool := (readFS fs p).isSome

/-- The `walkdir` fallback of `find_component_file`: the first entry of the
traversal whose file stem equals the component name up to ASCII case, paired
with the number of entries examined. -/
def walkFind : List Str → Str → Option Str × Nat
  | [], _ => (none, 0)
  | e :: es, name =>
    if eqIgnoreCase (fileStemOf e) name then (some e, 1)
    else
      let r := walkFind es name
      (r.1, r.2 + 1)

/-- The path cache of `HtmlGenerator` (`ComponentPathCache` in
`src/html.rs`): resolution results, positive or negative, keyed by the
string `cache_key`. -/
abbrev PathCache := List (Str × Option Str)

/-- The cache key of `find_component_file`: `"{dir}:{name}"` when a current
component directory is present, the bare name otherwise. -/
def cacheKey (currentComponentDir : Option Str) (componentName : Str) : Str :=
  match currentComponentDir with
  | some dir => dir ++ ':' :: componentName
  | none => componentName

/-- Result of `find_component_file`: the resolution outcome, the updated
path cache, and the number of filesystem operations performed (existence
probes plus `walkdir` entries examined) — zero exactly when the call was
answered from the cache. -/
structure FindResult where
  path : Option Str
  cache : PathCache
  probes : Nat
deriving DecidableEq, Repr

/-- Function `find_component_file` in `src/html.rs`.  A cached result (hit or miss) is
returned immediately; otherwise the exact resolved path with `.html` appended
is probed, then the case-insensitive `walkdir` fallback runs, and the outcome
— including a miss — is recorded in the cache before returning. -/
def findComponentFile (fs : FS) (componentsDir : Str)
    (currentComponentDir : Option Str) (componentName : Str)
    (pathCache : PathCache) : FindResult :=
  let key := cacheKey currentComponentDir componentName
  match lookupAssoc pathCache key with
  | some cachedPath => ⟨cachedPath, pathCache, 0⟩
  | none =>
    let componentPath :=
      resolveComponentPath componentsDir currentComponentDir componentName
    let withExtension := componentPath ++ ".html".data
    if existsFS fs withExtension then
      ⟨some withExtension, insertAssoc pathCache key (some withExtension), 1⟩
    else
      let w := walkFind fs.walkEntries componentName
      match w.1 with
      | some p => ⟨some p, insertAssoc pathCache key (some p), 1 + w.2⟩
      | none => ⟨none, insertAssoc pathCache key none, 1 + w.2⟩

/-! ## The renderer -/

/-- The mutable caches of `HtmlGenerator`: fully-expanded component markup
keyed by component name, and the path cache. -/
structure GenState where
  contentCache : List (Str × Str)
  pathCache : PathCache
deriving DecidableEq, Repr

/-- The diagnostic placeholder emitted for a circular component inclusion. -/
def circComment (name : Str) : Str :=
  "<!-- Circular dependency: ".data ++ name ++ " -->".data

/-- The diagnostic placeholder emitted for an unresolvable component. -/
def notFoundComment (name : Str) : Str :=
  "<!-- Component not found: ".data ++ name ++ " -->".data

/-- The diagnostic placeholder emitted when a resolved component file cannot
be read. -/
def readFailComment (name : Str) : Str :=
  "<!-- Failed to read component: ".data ++ name ++ " -->".data

/-- Method `HtmlGenerator::generate_html` with `load_component` inlined at its
single call site, as a fuel-indexed total function.  Fuel `0` answers
`none`; the Rust function carries no fuel, and the termination theorem below
shows that a sufficient fuel always exists.  Each surviving branch follows
the source line by line:

* no leftmost tag match — the accumulated result is returned;
* the matched name is already in `visited` — every occurrence of the matched
  tag text is replaced by the circular-dependency placeholder and scanning
  continues (`visited` is *not* shrunk anywhere);
* otherwise the name is added to `visited` and `load_component` runs: a
  content-cache hit substitutes the cached markup; otherwise
  `find_component_file` resolves the name, a readable file is rendered
  recursively with the resolved file's parent directory as the new current
  component directory and the result is cached by bare name, and resolution
  or read failures substitute their diagnostic placeholders. -/
def generateHtmlF (fs : FS) (componentsDir : Str) :
    Nat → Str → List Str → Option Str → GenState →
    Option (Str × List Str × GenState)
  | 0, _, _, _, _ => none
  | fuel + 1, content, visited, currentComponentDir, st =>
    match findTag content with
    | none => some (content, visited, st)
    | some (fullMatch, componentName) =>
      if componentName ∈ visited then
        generateHtmlF fs componentsDir fuel
          (replaceAll fullMatch (circComment componentName) content)
          visited currentComponentDir st
      else
        match lookupAssoc st.contentCache componentName with
        | some cached =>
          generateHtmlF fs componentsDir fuel
            (replaceAll fullMatch cached content)
            (componentName :: visited) currentComponentDir st
        | none =>
          match findComponentFile fs componentsDir currentComponentDir
              componentName st.pathCache with
          | ⟨some componentPath, cache2, _⟩ =>
            match readFS fs componentPath with
            | some fileContent =>
              match generateHtmlF fs componentsDir fuel fileContent
                  (componentName :: visited) (parentDir componentPath)
                  ⟨st.contentCache, cache2⟩ with
              | some (rendered, visited2, st2) =>
                generateHtmlF fs componentsDir fuel
                  (replaceAll fullMatch rendered content) visited2
                  currentComponentDir
                  ⟨insertAssoc st2.contentCache componentName rendered,
                    st2.pathCache⟩
              | none => none
            | none =>
              generateHtmlF fs componentsDir fuel
                (replaceAll fullMatch (readFailComment componentName) content)
                (componentName :: visited) currentComponentDir
                ⟨st.contentCache, cache2⟩
          | ⟨none, cache2, _⟩ =>
            generateHtmlF fs componentsDir fuel
              (replaceAll fullMatch (notFoundComment componentName) content)
              (componentName :: visited) currentComponentDir
              ⟨st.contentCache, cache2⟩

/-- Method `HtmlGenerator::load_component` as a standalone function: content-cache
lookup by bare component name, then resolution, read and recursive render
(delegated to `generateHtmlF` at the given fuel), caching the rendered markup
by bare name.  `generateHtmlF_succ` below shows that `generateHtmlF` runs
exactly this function where the source calls `load_component`. -/
def loadComponentF (fs : FS) (componentsDir : Str) (fuel : Nat)
    (componentName : Str) (visited : List Str)
    (currentComponentDir : Option Str) (st : GenState) :
    Option (Str × List Str × GenState) :=
  match lookupAssoc st.contentCache componentName with
  | some cached => some (cached, visited, st)
  | none =>
    match findComponentFile fs componentsDir currentComponentDir
        componentName st.pathCache with
    | ⟨some componentPath, cache2, _⟩ =>
      match readFS fs componentPath with
      | some fileContent =>
        match generateHtmlF fs componentsDir fuel fileContent visited
            (parentDir componentPath) ⟨st.contentCache, cache2⟩ with
        | some (rendered, visited2, st2) =>
          some (rendered, visited2,
            ⟨insertAssoc st2.contentCache componentName rendered,
              st2.pathCache⟩)
        | none => none
      | none =>
        some (readFailComment componentName, visited,
          ⟨st.contentCache, cache2⟩)
    | ⟨none, cache2, _⟩ =>
      some (notFoundComment componentName, visited,
        ⟨st.contentCache, cache2⟩)

/-! ## The dev-server watcher (`src/watcher.rs`) -/

/-- Type `ChangeType` in `src/watcher.rs`. -/
inductive ChangeType
  | create
  | modify
  | delete
  | cssChange
  | error (message : Str)
deriving DecidableEq, Repr

/-- Type `FileChange` in `src/watcher.rs`: a changed path with its classified
change type, the value broadcast on the change channel. -/
structure FileChange where
  path : Str
  eventType : ChangeType
deriving DecidableEq, Repr

/-- The top-level constructors of `notify::EventKind`; the watcher callback
matches only the constructor, never the payload. -/
inductive NotifyKind
  | any
  | access
  | create
  | modify
  | remove
  | other
deriving DecidableEq, Repr

/-- A low-level `notify::Event`: a kind and the touched paths. -/
structure NotifyEvent where
  kind : NotifyKind
  paths : List Str
deriving DecidableEq, Repr

/-- True when some touched path has the `css` extension
(`event.paths.iter().any(|p| p.extension().map_or(false, |ext| ext == "css"))`). -/
def hasCssPath (paths : List Str) : Bool :=
  paths.any (fun p => decide (pathExtension p = some "css".data))

/-- The classification `match event.kind` in `DevServer::setup_watcher`:
creations and removals map to `Create` and `Delete` unconditionally; only
modifications are inspected for CSS paths; every other kind is dropped
(the `_ => return` arm). -/
def classifyEvent (e : NotifyEvent) : Option ChangeType :=
  match e.kind with
  | .create => some .create
  | .modify =>
    if hasCssPath e.paths then some .cssChange else some .modify
  | .remove => some .delete
  | _ => none

/-- The debounce interval (`Duration::from_millis(100)`). -/
def debounceMillis : Nat := 100

/-- The state captured by the watcher callback closure: the instant of the
last accepted event (milliseconds) and the shared `changed_files` set. -/
structure WatcherState where
  lastEvent : Nat
  changedFiles : List Str
deriving DecidableEq, Repr

/-- One invocation of the watcher callback of `DevServer::setup_watcher` on
a successfully delivered event, returning the updated closure state and the
list of `FileChange` values sent on the broadcast channel.  The debounce
check precedes classification; a debounced or unclassifiable event leaves
`last_event` untouched; an accepted event records every touched path and
publishes one `FileChange` per touched path, then updates `last_event`. -/
def watcherStep (ws : WatcherState) (now : Nat) (e : NotifyEvent) :
    WatcherState × List FileChange :=
  if now - ws.lastEvent < debounceMillis then (ws, [])
  else
    match classifyEvent e with
    | none => (ws, [])
    | some changeType =>
      (⟨now, e.paths ++ ws.changedFiles⟩,
        e.paths.map (fun p => ⟨p, changeType⟩))

/-- The externally observable actions the dev server could take in reaction
to a filesystem event.  The vocabulary covers what the specification expects
of watch mode — publishing change events, re-invoking the build, clearing
the renderer caches, logging — so that the absence of an action is statable.
-/
inductive DevAction
  | publishChange (c : FileChange)
  | rebuild
  | clearCaches
  | logError (message : Str)
deriving DecidableEq, Repr

/-- Everything `DevServer::start` does in reaction to one delivered watcher
event.  The watcher callback is the only code in `src/watcher.rs` (and the
only code reachable from `main` in watch mode) that runs on a filesystem
event: it publishes the classified `FileChange` values on the broadcast
channel and nothing else — no rebuild is triggered and no renderer cache is
touched anywhere in the event path. -/
def devServerOnEvent (ws : WatcherState) (now : Nat) (e : NotifyEvent) :
    WatcherState × List DevAction :=
  let r := watcherStep ws now e
  (r.1, r.2.map DevAction.publishChange)

/-! ## The batch build (`process_files` in `src/main.rs`) -/

/-- The aggregate outcome of one `process_files` call.  `written` is the
list of output paths whose jobs succeeded (each such job wrote its file
before returning `Ok`); `logged` is the sequence of error-log lines emitted
after the jobs completed; `seoInvoked` records whether the site-wide
sitemap/RSS/robots generators ran. -/
structure BatchResult where
  written : List Str
  logged : List Str
  seoInvoked : Bool
  result : Except Str Unit
deriving Repr

/-- The success payload of a per-file job, `Ok(out_path)`. -/
def jobOk : Except Str Str → Option Str
  | .ok p => some p
  | .error _ => none

/-- The failure payload of a per-file job. -/
def jobErr : Except Str Str → Option Str
  | .ok _ => none
  | .error e => some e

/-- Function `process_files` in `src/main.rs`, with the per-file job bodies
(read → render → analyze → minify → write) abstracted into their outcomes:
each job independently yields `Ok(out_path)` (its output file was written)
or an error.  The orchestration mirrors the source: all jobs run to
completion and their results are collected; the errors are filtered out; a
non-empty error list is logged line by line and the batch returns the
failure `anyhow!("Some files failed to process")`; only when every job
succeeded (and SEO is enabled and configured) do the sitemap/RSS/robots
generators run, over the aggregate list of written outputs. -/
def processFiles (jobs : List (Except Str Str)) (enableSeo : Bool)
    (seoConfigPresent : Bool) (seoGen : List Str → Except Str Unit) :
    BatchResult :=
  let fileResults := jobs
  let processedFiles := fileResults.filterMap jobOk
  let errors := fileResults.filterMap jobErr
  if errors.isEmpty then
    if enableSeo && seoConfigPresent then
      ⟨processedFiles, [], true, seoGen processedFiles⟩
    else
      ⟨processedFiles, [], false, .ok ()⟩
  else
    ⟨processedFiles, "Failed to process some files:".data :: errors, false,
      .error "Some files failed to process".data⟩

/-! ## Length bounds on resolution

The termination argument for the renderer needs every component name that
`load_component` can successfully resolve — directly, through the `walkdir`
fallback, or through a (possibly colliding) path-cache entry — to be short:
no longer than a bound computed from the lengths of the filesystem's paths
and of the current-directory strings in play.  The lemmas of this section
establish those bounds. -/

/-- The length of the longest string in a list. -/
def maxLenL (l : List Str) : Nat := l.foldr (fun s m => max s.length m) 0

/-- All paths the filesystem can ever hand out: the readable files and the
`walkdir` entries. -/
def fsPaths (fs : FS) : List Str := fs.files.map Prod.fst ++ fs.walkEntries

/-- Length bound on every path of the filesystem. -/
def pathLenBound (fs : FS) : Nat := maxLenL (fsPaths fs)

/-- Length bound on every component name that can resolve, and on every
path-cache key recorded for such a name, given a bound `dirBound` on the
current-directory strings in play. -/
def nameLenBound (fs : FS) (dirBound : Nat) : Nat :=
  dirBound + pathLenBound fs + 2

/-- The current component directory, when present, is within the directory
length bound. -/
def dirOK (dirBound : Nat) : Option Str → Bool
  | none => true
  | some d => decide (d.length ≤ dirBound)

/-- A path-cache entry is well formed: a positive entry stores a genuine
filesystem path under a key of bounded length. -/
def pathEntryOK (fs : FS) (dirBound : Nat) : Str × Option Str → Bool
  | (_, none) => true
  | (k, some p) =>
    decide (k.length ≤ nameLenBound fs dirBound) && decide (p ∈ fsPaths fs)

/-- The renderer state invariant: every positive path-cache entry is well
formed and every content-cache key has bounded length. -/
def stateOK (fs : FS) (dirBound : Nat) (st : GenState) : Bool :=
  st.pathCache.all (pathEntryOK fs dirBound) &&
  st.contentCache.all
    (fun e => decide (e.1.length ≤ nameLenBound fs dirBound))

/-! ## Concrete fixtures for the claims -/

/-- An empty filesystem. -/
def fsEmpty : FS := ⟨[], []⟩

/-- Filesystem with one static component `A` (no tags of its own): an
acyclic inclusion graph in which every referenced component resolves to a
readable file. -/
def fsDiamond : FS :=
  ⟨[("comps/A.html".data, "hello".data)], ["comps/A.html".data]⟩

/-- A page including component `A` twice, on two sibling (non-overlapping)
branches, with the two tags differing only in quote style. -/
def pageTwiceA : Str :=
  "<component name=\"A\"/><component name='A'/>".data

/-- The second inclusion tag of `pageTwiceA`. -/
def tagSingleQuoteA : Str := "<component name='A'/>".data

/-- A page including component `A` once. -/
def pageIncludeA : Str := "<component name=\"A\"/>".data

/-- Filesystem in which component `A` includes itself through two separate
tag occurrences (differing in quote style): a cycle that re-enters twice. -/
def fsSelfTwice : FS :=
  ⟨[("comps/A.html".data,
      "x<component name=\"A\"/>y<component name='A'/>z".data)],
    ["comps/A.html".data]⟩

/-- Filesystem with the two-component cycle of the specification's
end-to-end scenario: `A` includes `B` once, `B` includes `A` once, and each
carries its own static content. -/
def fsCycleAB : FS :=
  ⟨[("comps/A.html".data, "<div>A</div><component name=\"B\"/>".data),
    ("comps/B.html".data, "<p>B</p><component name=\"A\"/>".data)],
    ["comps/A.html".data, "comps/B.html".data]⟩

/-- The prefix common to every circular-dependency placeholder. -/
def circMark : Str := "<!-- Circular dependency:".data

/-- One step of the renderer's loop, phrased through `loadComponentF`: this
is the mutual-recursion structure of `generate_html` and `load_component` in
the source. -/
theorem generateHtmlF_succ (fs : FS) (componentsDir : Str) (fuel : Nat)
    (content : Str) (visited : List Str) (currentComponentDir : Option Str)
    (st : GenState) :
    generateHtmlF fs componentsDir (fuel + 1) content visited
      currentComponentDir st =
    match findTag content with
    | none => some (content, visited, st)
    | some (fullMatch, componentName) =>
      if componentName ∈ visited then
        generateHtmlF fs componentsDir fuel
          (replaceAll fullMatch (circComment componentName) content)
          visited currentComponentDir st
      else
        match loadComponentF fs componentsDir fuel componentName
            (componentName :: visited) currentComponentDir st with
        | some (componentContent, visited2, st2) =>
          generateHtmlF fs componentsDir fuel
            (replaceAll fullMatch componentContent content) visited2
            currentComponentDir st2
        | none => none := by
  show (match findTag content with
    | none => some (content, visited, st)
    | some (fullMatch, componentName) => _) = _
  cases hft : findTag content with
  | none => rfl
  | some pr =>
    obtain ⟨fullMatch, componentName⟩ := pr
    by_cases hv : componentName ∈ visited
    · simp [hv]
    · simp only [hv, if_neg, if_false]
      unfold loadComponentF
      cases hcc : lookupAssoc st.contentCache componentName with
      | some cached => simp
      | none =>
        simp only
        cases hfr : findComponentFile fs componentsDir currentComponentDir
            componentName st.pathCache with
        | mk pathv cache2 probes =>
          cases pathv with
          | none => simp
          | some componentPath =>
            simp only
            cases hrd : readFS fs componentPath with
            | none => simp
            | some fileContent =>
              simp only
              cases hg : generateHtmlF fs componentsDir fuel fileContent
                  (componentName :: visited) (parentDir componentPath)
                  ⟨st.contentCache, cache2⟩ with
              | none => simp
              | some r => obtain ⟨rendered, visited2, st2⟩ := r; simp


/-! ## Basic lemmas about the string utilities -/

theorem beginsWith_iff (pat : Str) : ∀ s : Str,
    beginsWith pat s = true ↔ ∃ r, s = pat ++ r := by
  induction pat with
  | nil => intro s; simp [beginsWith]
  | cons p ps ih =>
    intro s
    cases s with
    | nil => simp [beginsWith]
    | cons c cs =>
      simp only [beginsWith, Bool.and_eq_true, decide_eq_true_eq, ih,
        List.cons_append, List.cons.injEq]
      constructor
      · rintro ⟨rfl, r, rfl⟩; exact ⟨r, rfl, rfl⟩
      · rintro ⟨r, rfl, rfl⟩; exact ⟨rfl, r, rfl⟩

theorem matchLit_sound : ∀ (pat s r : Str), matchLit pat s = some r →
    s = pat ++ r := by
  intro pat
  induction pat with
  | nil => intro s r h; simp [matchLit] at h; simp [h]
  | cons p ps ih =>
    intro s r h
    cases s with
    | nil => simp [matchLit] at h
    | cons c cs =>
      simp only [matchLit] at h
      split at h
      · next heq => simpa [heq] using congrArg (List.cons c) (ih cs r h)
      · exact absurd h (by simp)

theorem spanWhile_append (p : Char → Bool) : ∀ s : Str,
    (spanWhile p s).1 ++ (spanWhile p s).2 = s := by
  intro s
  induction s with
  | nil => rfl
  | cons c cs ih =>
    by_cases hpc : p c
    · simp [spanWhile, hpc, ih]
    · simp [spanWhile, hpc]

theorem spanWhile_all (p : Char → Bool) : ∀ s : Str,
    ∀ c ∈ (spanWhile p s).1, p c = true := by
  intro s
  induction s with
  | nil => intro c hc; simp [spanWhile] at hc
  | cons a as ih =>
    intro c hc
    by_cases hpa : p a
    · simp only [spanWhile, hpa, if_true, List.mem_cons] at hc
      rcases hc with rfl | hc
      · exact hpa
      · exact ih c hc
    · simp [spanWhile, hpa] at hc

theorem countQ_append : ∀ a b : Str, countQ (a ++ b) = countQ a + countQ b := by
  intro a b
  induction a with
  | nil => simp [countQ]
  | cons c cs ih => simp [countQ, ih]; omega

theorem countQ_zero_of_notQuote : ∀ a : Str,
    (∀ c ∈ a, notQuote c = true) → countQ a = 0 := by
  intro a
  induction a with
  | nil => intro _; rfl
  | cons c cs ih =>
    intro h
    have hc := h c (List.mem_cons_self c cs)
    have hcs := ih (fun x hx => h x (List.mem_cons_of_mem c hx))
    have : ¬(c = '"' ∨ c = '\'') := by
      intro hq
      rcases hq with rfl | rfl <;> simp [notQuote, isQuote] at hc
    simp [countQ, this, hcs]

theorem notQuote_of_isWs (c : Char) (h : isWs c = true) : notQuote c = true := by
  simp only [isWs, Bool.or_eq_true, decide_eq_true_eq] at h
  rcases h with ((((rfl | rfl) | rfl) | rfl) | rfl) | rfl <;> decide

theorem countQ_cons_quote (c : Char) (s : Str) (h : isQuote c = true) :
    countQ (c :: s) = 1 + countQ s := by
  simp only [isQuote, Bool.or_eq_true, decide_eq_true_eq] at h
  simp [countQ, h]

theorem countQ_drop_le : ∀ (s : Str) (k : Nat), countQ (s.drop k) ≤ countQ s := by
  intro s
  induction s with
  | nil => intro k; simp
  | cons c cs ih =>
    intro k
    cases k with
    | zero => simp
    | succ k =>
      calc countQ ((c :: cs).drop (k + 1)) = countQ (cs.drop k) := rfl
        _ ≤ countQ cs := ih k
        _ ≤ countQ (c :: cs) := Nat.le_add_left _ _

theorem replaceAllAux_countQ_le : ∀ (n : Nat) (pat rep s : Str),
    countQ rep = 0 → countQ (replaceAllAux n pat rep s) ≤ countQ s := by
  intro n
  induction n with
  | zero => intro pat rep s _; simp [replaceAllAux]
  | succ n ih =>
    intro pat rep s hrep
    cases s with
    | nil => simp [replaceAllAux]
    | cons c cs =>
      simp only [replaceAllAux]
      split
      · calc countQ (rep ++ replaceAllAux n pat rep ((c :: cs).drop pat.length))
            = countQ rep + countQ (replaceAllAux n pat rep ((c :: cs).drop pat.length)) :=
              countQ_append _ _
          _ ≤ 0 + countQ ((c :: cs).drop pat.length) := by
              rw [hrep]; exact Nat.add_le_add_left (ih pat rep _ hrep) 0
          _ ≤ countQ (c :: cs) := by simpa using countQ_drop_le (c :: cs) pat.length
      · show countQ (c :: replaceAllAux n pat rep cs) ≤ countQ (c :: cs)
        simp only [countQ]
        exact Nat.add_le_add_left (ih pat rep cs hrep) _

theorem replaceAllAux_countQ_decr : ∀ (n : Nat) (pat rep s : Str),
    s.length ≤ n → (∃ pre post, s = pre ++ pat ++ post) → countQ pat = 2 →
    countQ rep = 0 → countQ (replaceAllAux n pat rep s) + 2 ≤ countQ s := by
  intro n
  induction n with
  | zero =>
    intro pat rep s hn hocc hpat _
    obtain ⟨pre, post, rfl⟩ := hocc
    simp only [List.length_append, Nat.le_zero, Nat.add_eq_zero] at hn
    obtain ⟨⟨-, hp⟩, -⟩ := hn
    rw [List.length_eq_zero] at hp
    rw [hp] at hpat
    simp [countQ] at hpat
  | succ n ih =>
    intro pat rep s hn hocc hpat hrep
    have hpatne : pat ≠ [] := by
      intro h; rw [h] at hpat; simp [countQ] at hpat
    cases s with
    | nil =>
      obtain ⟨pre, post, h⟩ := hocc
      have h2 := List.append_eq_nil.mp (List.append_eq_nil.mp h.symm).1
      exact absurd h2.2 hpatne
    | cons c cs =>
      simp only [replaceAllAux]
      split
      · next hcond =>
        rw [Bool.and_eq_true] at hcond
        obtain ⟨r, hr⟩ := (beginsWith_iff pat (c :: cs)).mp hcond.1
        have hdrop : (c :: cs).drop pat.length = r := by
          rw [hr]; simp [List.drop_left]
        rw [countQ_append, hrep, Nat.zero_add, hdrop, hr, countQ_append, hpat]
        have := replaceAllAux_countQ_le n pat rep r hrep
        omega
      · next hcond =>
        have hnotbw : ¬ beginsWith pat (c :: cs) = true := by
          intro hb
          apply hcond
          rw [hb, Bool.true_and]
          cases pat with
          | nil => exact absurd rfl hpatne
          | cons a as => rfl
        obtain ⟨pre, post, hs⟩ := hocc
        cases pre with
        | nil =>
          exact absurd ((beginsWith_iff pat (c :: cs)).mpr
            ⟨post, by simpa using hs⟩) hnotbw
        | cons d pre' =>
          have hc : c = d ∧ cs = pre' ++ pat ++ post := by
            simpa using hs
          show countQ (c :: replaceAllAux n pat rep cs) + 2 ≤ countQ (c :: cs)
          simp only [countQ]
          have hcs : countQ (replaceAllAux n pat rep cs) + 2 ≤ countQ cs := by
            apply ih pat rep cs _ ⟨pre', post, hc.2⟩ hpat hrep
            simpa using Nat.le_of_succ_le_succ hn
          omega

theorem replaceAll_countQ_decr (pat rep s : Str)
    (hocc : ∃ pre post, s = pre ++ pat ++ post) (hpat : countQ pat = 2)
    (hrep : countQ rep = 0) : countQ (replaceAll pat rep s) + 2 ≤ countQ s :=
  replaceAllAux_countQ_decr s.length pat rep s (Nat.le_refl _) hocc hpat hrep

theorem matchTagAt_sound (s full nm : Str) (h : matchTagAt s = some (full, nm)) :
    (∃ rest, s = full ++ rest) ∧ countQ full = 2 ∧
    (∀ c ∈ nm, notQuote c = true) ∧ full ≠ [] := by
  unfold matchTagAt at h
  cases h1 : matchLit "<component".data s with
  | none => rw [h1] at h; cases h
  | some r1 =>
    rw [h1] at h
    simp only at h
    obtain ⟨W1, R2, hsp1⟩ : ∃ a b, spanWhile isWs r1 = (a, b) := ⟨_, _, rfl⟩
    have e2 : W1 ++ R2 = r1 := by
      have := spanWhile_append isWs r1; rwa [hsp1] at this
    have a2 : ∀ c ∈ W1, isWs c = true := by
      have := spanWhile_all isWs r1; rwa [hsp1] at this
    rw [hsp1] at h
    simp only at h
    by_cases hws : W1.isEmpty = true
    · rw [if_pos hws] at h; cases h
    · rw [if_neg hws] at h
      cases h2 : matchLit "name=".data R2 with
      | none => rw [h2] at h; cases h
      | some r3 =>
        rw [h2] at h
        cases hr3 : r3 with
        | nil => rw [hr3] at h; cases h
        | cons q1 r4 =>
          rw [hr3] at h
          simp only at h
          by_cases hq1 : isQuote q1 = true
          · rw [if_pos hq1] at h
            obtain ⟨NM, R5, hsp2⟩ : ∃ a b, spanWhile notQuote r4 = (a, b) :=
              ⟨_, _, rfl⟩
            have e4 : NM ++ R5 = r4 := by
              have := spanWhile_append notQuote r4; rwa [hsp2] at this
            have a4 : ∀ c ∈ NM, notQuote c = true := by
              have := spanWhile_all notQuote r4; rwa [hsp2] at this
            rw [hsp2] at h
            simp only at h
            by_cases hnm : NM.isEmpty = true
            · rw [if_pos hnm] at h; cases h
            · rw [if_neg hnm] at h
              cases hr5 : R5 with
              | nil => rw [hr5] at h; cases h
              | cons q2 r6 =>
                rw [hr5] at h
                simp only at h
                by_cases hq2 : isQuote q2 = true
                · rw [if_pos hq2] at h
                  obtain ⟨W2, R7, hsp3⟩ : ∃ a b, spanWhile isWs r6 = (a, b) :=
                    ⟨_, _, rfl⟩
                  have e5 : W2 ++ R7 = r6 := by
                    have := spanWhile_append isWs r6; rwa [hsp3] at this
                  have a5 : ∀ c ∈ W2, isWs c = true := by
                    have := spanWhile_all isWs r6; rwa [hsp3] at this
                  rw [hsp3] at h
                  simp only at h
                  cases h3 : matchLit "/>".data R7 with
                  | none => rw [h3] at h; cases h
                  | some rrest =>
                    rw [h3] at h
                    simp only [Option.some.injEq, Prod.mk.injEq] at h
                    obtain ⟨hfull, hnmq⟩ := h
                    subst hnmq
                    have e1 := matchLit_sound _ _ _ h1
                    have e3 := matchLit_sound _ _ _ h2
                    have e6 := matchLit_sound _ _ _ h3
                    refine ⟨⟨rrest, ?_⟩, ?_, a4, ?_⟩
                    · rw [← hfull, e1, ← e2, e3, hr3, ← e4, hr5, ← e5, e6]
                      simp
                    · rw [← hfull]
                      have cq1 : countQ "<component".data = 0 := by decide
                      have cq2 : countQ "name=".data = 0 := by decide
                      have cq3 : countQ "/>".data = 0 := by decide
                      have cw1 : countQ W1 = 0 :=
                        countQ_zero_of_notQuote _
                          (fun c hc => notQuote_of_isWs c (a2 c hc))
                      have cw2 : countQ W2 = 0 :=
                        countQ_zero_of_notQuote _
                          (fun c hc => notQuote_of_isWs c (a5 c hc))
                      have cnm : countQ NM = 0 := countQ_zero_of_notQuote _ a4
                      simp only [countQ_append]
                      rw [countQ_cons_quote _ _ hq1, countQ_cons_quote _ _ hq2,
                        cq1, cq2, cq3, cw1, cw2, cnm]
                    · rw [← hfull]; simp
                · rw [if_neg hq2] at h; cases h
          · rw [if_neg hq1] at h; cases h

theorem findTag_sound : ∀ (s full nm : Str), findTag s = some (full, nm) →
    (∃ pre post, s = pre ++ full ++ post) ∧ countQ full = 2 ∧
    (∀ c ∈ nm, notQuote c = true) ∧ full ≠ [] := by
  intro s
  induction s with
  | nil => intro full nm h; cases h
  | cons c cs ih =>
    intro full nm h
    simp only [findTag] at h
    cases hm : matchTagAt (c :: cs) with
    | some v =>
      rw [hm] at h
      obtain rfl : v = (full, nm) := Option.some.inj h
      obtain ⟨⟨rest, hrest⟩, hq, hnm, hne⟩ := matchTagAt_sound _ _ _ hm
      exact ⟨⟨[], rest, by simpa using hrest⟩, hq, hnm, hne⟩
    | none =>
      rw [hm] at h
      obtain ⟨⟨pre, post, hsplit⟩, hq, hnm, hne⟩ := ih full nm h
      exact ⟨⟨c :: pre, post, by simp [hsplit]⟩, hq, hnm, hne⟩

theorem countQ_ge_two_of_findTag (s full nm : Str)
    (h : findTag s = some (full, nm)) : 2 ≤ countQ s := by
  obtain ⟨⟨pre, post, rfl⟩, hq, -, -⟩ := findTag_sound _ full nm h
  rw [countQ_append, countQ_append, hq]
  omega

/-- The circular-dependency placeholder for a captured component name
contains no quote character. -/
theorem countQ_circComment (nm : Str) (h : ∀ c ∈ nm, notQuote c = true) :
    countQ (circComment nm) = 0 := by
  unfold circComment
  rw [countQ_append, countQ_append, countQ_zero_of_notQuote nm h]
  decide

theorem countQ_notFoundComment (nm : Str) (h : ∀ c ∈ nm, notQuote c = true) :
    countQ (notFoundComment nm) = 0 := by
  unfold notFoundComment
  rw [countQ_append, countQ_append, countQ_zero_of_notQuote nm h]
  decide

theorem countQ_readFailComment (nm : Str) (h : ∀ c ∈ nm, notQuote c = true) :
    countQ (readFailComment nm) = 0 := by
  unfold readFailComment
  rw [countQ_append, countQ_append, countQ_zero_of_notQuote nm h]
  decide

theorem maxLenL_le_of_mem : ∀ (l : List Str) (s : Str), s ∈ l →
    s.length ≤ maxLenL l := by
  intro l
  induction l with
  | nil => intro s hs; cases hs
  | cons a as ih =>
    intro s hs
    rcases List.mem_cons.mp hs with rfl | hs
    · exact Nat.le_max_left _ _
    · exact Nat.le_trans (ih s hs) (Nat.le_max_right _ _)

theorem lookupAssoc_mem {α : Type} : ∀ (m : List (Str × α)) (k : Str)
    (val : α), lookupAssoc m k = some val → (k, val) ∈ m := by
  intro m
  induction m with
  | nil => intro k val h; cases h
  | cons e rest ih =>
    intro k val h
    obtain ⟨ek, ev⟩ := e
    simp only [lookupAssoc] at h
    split at h
    · next heq => cases h; exact heq ▸ List.mem_cons_self _ _
    · exact List.mem_cons_of_mem _ (ih k val h)

theorem existsFS_mem (fs : FS) (p : Str) (h : existsFS fs p = true) :
    p ∈ fsPaths fs := by
  unfold existsFS readFS at h
  cases hl : lookupAssoc fs.files p with
  | none => rw [hl] at h; cases h
  | some c =>
    have := lookupAssoc_mem fs.files p c hl
    exact List.mem_append_left _ (List.mem_map_of_mem Prod.fst this)

theorem walkFind_mem : ∀ (es : List Str) (name p : Str),
    (walkFind es name).1 = some p →
    p ∈ es ∧ eqIgnoreCase (fileStemOf p) name = true := by
  intro es
  induction es with
  | nil => intro name p h; cases h
  | cons e rest ih =>
    intro name p h
    simp only [walkFind] at h
    split at h
    · next heq =>
      cases h
      exact ⟨List.mem_cons_self _ _, heq⟩
    · obtain ⟨hmem, hcase⟩ := ih name p h
      exact ⟨List.mem_cons_of_mem _ hmem, hcase⟩

theorem eqIgnoreCase_len (a b : Str) (h : eqIgnoreCase a b = true) :
    a.length = b.length := by
  unfold eqIgnoreCase at h
  rw [decide_eq_true_eq] at h
  have := congrArg List.length h
  simpa using this

theorem fileNameOf_len (p : Str) : (fileNameOf p).length ≤ p.length := by
  unfold fileNameOf
  calc ((p.reverse.takeWhile (fun c => !decide (c = '/'))).reverse).length
      = (p.reverse.takeWhile (fun c => !decide (c = '/'))).length := by
        rw [List.length_reverse]
    _ ≤ p.reverse.length := (List.takeWhile_prefix _).length_le
    _ = p.length := by rw [List.length_reverse]

theorem fileStemOf_len (p : Str) : (fileStemOf p).length ≤ p.length := by
  unfold fileStemOf
  simp only
  split
  · exact fileNameOf_len p
  · split
    · exact fileNameOf_len p
    · refine Nat.le_trans ?_ (fileNameOf_len p)
      rw [List.length_take]
      omega

theorem parentDir_len (p d : Str) (h : parentDir p = some d) :
    d.length ≤ p.length := by
  unfold parentDir at h
  by_cases h1 : p = []
  · rw [if_pos h1] at h; cases h
  · rw [if_neg h1] at h
    by_cases h2 : p = ['/']
    · rw [if_pos h2] at h; cases h
    · rw [if_neg h2] at h
      simp only at h
      by_cases h3 : (p.reverse.dropWhile (fun c => !decide (c = '/'))).reverse = []
      · rw [if_pos h3] at h
        cases h
        exact Nat.zero_le _
      · rw [if_neg h3] at h
        by_cases h4 :
            (p.reverse.dropWhile (fun c => !decide (c = '/'))).reverse = ['/']
        · rw [if_pos h4] at h
          cases h
          cases p with
          | nil => exact absurd rfl h1
          | cons a as => simp
        · rw [if_neg h4] at h
          cases h
          calc ((p.reverse.dropWhile (fun c => !decide (c = '/'))).reverse).dropLast.length
              ≤ ((p.reverse.dropWhile (fun c => !decide (c = '/'))).reverse).length := by
                rw [List.length_dropLast]; omega
            _ = (p.reverse.dropWhile (fun c => !decide (c = '/'))).length := by
                rw [List.length_reverse]
            _ ≤ p.reverse.length := (List.dropWhile_suffix _).length_le
            _ = p.length := by rw [List.length_reverse]

theorem resolve_name_le (b : Str) (d : Option Str) (name : Str) :
    name.length ≤ (resolveComponentPath b d name).length := by
  have hlen : (normalizeComponentName name).length = name.length := by
    unfold normalizeComponentName; rw [List.length_map]
  unfold resolveComponentPath
  simp only
  by_cases hhead : (normalizeComponentName name).head? = some '/'
  · rw [if_pos hhead]
    have hne : normalizeComponentName name ≠ [] := by
      intro hnil; rw [hnil] at hhead; cases hhead
    have h1 : 1 ≤ (normalizeComponentName name).length := List.length_pos.mpr hne
    simp only [List.length_append, List.length_cons, List.length_drop]
    omega
  · rw [if_neg hhead]
    cases d with
    | some dd =>
      simp only [List.length_append, List.length_cons]
      omega
    | none =>
      simp only [List.length_append, List.length_cons]
      omega

theorem name_le_cacheKey (d : Option Str) (name : Str) :
    name.length ≤ (cacheKey d name).length := by
  cases d with
  | none => exact Nat.le_refl _
  | some dd => simp [cacheKey]; omega

theorem cacheKey_le (dirBound : Nat) (d : Option Str) (name : Str) (nb : Nat)
    (hdir : dirOK dirBound d = true) (hname : name.length ≤ nb) :
    (cacheKey d name).length ≤ dirBound + 1 + nb := by
  cases d with
  | none => simp only [cacheKey]; omega
  | some dd =>
    simp only [dirOK, decide_eq_true_eq] at hdir
    simp only [cacheKey, List.length_append, List.length_cons]
    omega

theorem findCF_hit (fs : FS) (cdir : Str) (d : Option Str) (name : Str)
    (cache : PathCache) (val : Option Str)
    (h : lookupAssoc cache (cacheKey d name) = some val) :
    findComponentFile fs cdir d name cache = ⟨val, cache, 0⟩ := by
  simp only [findComponentFile, h]

theorem findCF_miss_mem (fs : FS) (cdir : Str) (d : Option Str) (name : Str)
    (cache : PathCache) (p : Str)
    (hmiss : lookupAssoc cache (cacheKey d name) = none)
    (hp : (findComponentFile fs cdir d name cache).path = some p) :
    p ∈ fsPaths fs ∧ name.length ≤ pathLenBound fs + 1 := by
  simp only [findComponentFile, hmiss] at hp
  split at hp
  · next hex =>
    cases hp
    constructor
    · exact existsFS_mem fs _ hex
    · have h1 := resolve_name_le cdir d name
      have h2 := maxLenL_le_of_mem (fsPaths fs) _ (existsFS_mem fs _ hex)
      simp only [List.length_append] at h2
      unfold pathLenBound
      omega
  · next hex =>
    cases hw : (walkFind fs.walkEntries name).1 with
    | none => rw [hw] at hp; simp at hp
    | some q =>
      rw [hw] at hp
      simp only at hp
      cases hp
      obtain ⟨hmem, hcase⟩ := walkFind_mem fs.walkEntries name p hw
      have hmem2 : p ∈ fsPaths fs := List.mem_append_right _ hmem
      constructor
      · exact hmem2
      · have h1 := eqIgnoreCase_len _ _ hcase
        have h2 := fileStemOf_len p
        have h3 := maxLenL_le_of_mem (fsPaths fs) p hmem2
        unfold pathLenBound
        omega

theorem findCF_miss_cache (fs : FS) (cdir : Str) (d : Option Str) (name : Str)
    (cache : PathCache)
    (hmiss : lookupAssoc cache (cacheKey d name) = none) :
    (findComponentFile fs cdir d name cache).cache =
      insertAssoc cache (cacheKey d name)
        ((findComponentFile fs cdir d name cache).path) := by
  simp only [findComponentFile, hmiss]
  split
  · rfl
  · cases hw : (walkFind fs.walkEntries name).1 <;> simp [hw]

theorem findCF_found (fs : FS) (cdir : Str) (dirBound : Nat) (d : Option Str)
    (name : Str) (cache : PathCache) (p : Str)
    (hcacheOK : cache.all (pathEntryOK fs dirBound) = true)
    (hp : (findComponentFile fs cdir d name cache).path = some p) :
    p ∈ fsPaths fs ∧ name.length ≤ nameLenBound fs dirBound := by
  cases hlk : lookupAssoc cache (cacheKey d name) with
  | some val =>
    rw [findCF_hit fs cdir d name cache val hlk] at hp
    simp only at hp
    cases hp
    have hmem := lookupAssoc_mem cache _ _ hlk
    have hok := (List.all_eq_true.mp hcacheOK) _ hmem
    simp only [pathEntryOK, Bool.and_eq_true, decide_eq_true_eq] at hok
    exact ⟨hok.2, Nat.le_trans (name_le_cacheKey d name) hok.1⟩
  | none =>
    obtain ⟨h1, h2⟩ := findCF_miss_mem fs cdir d name cache p hlk hp
    refine ⟨h1, ?_⟩
    unfold nameLenBound
    omega

theorem findCF_cacheOK (fs : FS) (cdir : Str) (dirBound : Nat)
    (d : Option Str) (name : Str) (cache : PathCache)
    (hdir : dirOK dirBound d = true)
    (hcacheOK : cache.all (pathEntryOK fs dirBound) = true) :
    (findComponentFile fs cdir d name cache).cache.all
      (pathEntryOK fs dirBound) = true := by
  cases hlk : lookupAssoc cache (cacheKey d name) with
  | some val =>
    rw [findCF_hit fs cdir d name cache val hlk]
    exact hcacheOK
  | none =>
    rw [findCF_miss_cache fs cdir d name cache hlk]
    unfold insertAssoc
    rw [List.all_cons, Bool.and_eq_true]
    refine ⟨?_, hcacheOK⟩
    cases hp : (findComponentFile fs cdir d name cache).path with
    | none => rfl
    | some p =>
      obtain ⟨hmem, hlen⟩ := findCF_miss_mem fs cdir d name cache p hlk hp
      simp only [pathEntryOK, Bool.and_eq_true, decide_eq_true_eq]
      refine ⟨?_, hmem⟩
      have := cacheKey_le dirBound d name (pathLenBound fs + 1) hdir hlen
      unfold nameLenBound
      omega

/-! ## Fuel monotonicity of the renderer -/

theorem loadF_mono_of (fs : FS) (cdir : Str) (fuel : Nat)
    (H : ∀ c v d st r, generateHtmlF fs cdir fuel c v d st = some r →
      generateHtmlF fs cdir (fuel + 1) c v d st = some r)
    (name : Str) (v : List Str) (d : Option Str) (st : GenState)
    (r : Str × List Str × GenState)
    (h : loadComponentF fs cdir fuel name v d st = some r) :
    loadComponentF fs cdir (fuel + 1) name v d st = some r := by
  unfold loadComponentF at h ⊢
  cases hcc : lookupAssoc st.contentCache name with
  | some cached => simp only [hcc] at h; exact h
  | none =>
    simp only [hcc] at h
    simp only
    cases hfr : findComponentFile fs cdir d name st.pathCache with
    | mk pathv cache2 probes =>
      simp only [hfr] at h
      cases pathv with
      | none => exact h
      | some cp =>
        simp only
        cases hrd : readFS fs cp with
        | none => simp only [hrd] at h; exact h
        | some fc =>
          simp only [hrd] at h
          simp only
          cases hg : generateHtmlF fs cdir fuel fc v (parentDir cp)
              ⟨st.contentCache, cache2⟩ with
          | none => simp only [hg] at h; exact absurd h (by simp)
          | some rr =>
            obtain ⟨ren, v2, st2⟩ := rr
            simp only [hg] at h
            rw [H _ _ _ _ _ hg]
            exact h

theorem genF_mono (fs : FS) (cdir : Str) : ∀ (fuel : Nat) (c : Str)
    (v : List Str) (d : Option Str) (st : GenState)
    (r : Str × List Str × GenState),
    generateHtmlF fs cdir fuel c v d st = some r →
    generateHtmlF fs cdir (fuel + 1) c v d st = some r := by
  intro fuel
  induction fuel with
  | zero => intro c v d st r h; simp [generateHtmlF] at h
  | succ fuel ih =>
    intro c v d st r h
    rw [generateHtmlF_succ] at h
    rw [generateHtmlF_succ]
    cases hft : findTag c with
    | none => simp only [hft] at h; exact h
    | some pr =>
      obtain ⟨full, name⟩ := pr
      simp only [hft] at h
      simp only
      by_cases hv : name ∈ v
      · rw [if_pos hv] at h ⊢
        exact ih _ _ _ _ _ h
      · rw [if_neg hv] at h ⊢
        cases hld : loadComponentF fs cdir fuel name (name :: v) d st with
        | none => simp only [hld] at h; exact absurd h (by simp)
        | some lr =>
          obtain ⟨cc, v2, st2⟩ := lr
          simp only [hld] at h
          rw [loadF_mono_of fs cdir fuel ih _ _ _ _ _ hld]
          exact ih _ _ _ _ _ h

theorem genF_mono_le (fs : FS) (cdir : Str) {f1 f2 : Nat} (hle : f1 ≤ f2) :
    ∀ (c : Str) (v : List Str) (d : Option Str) (st : GenState)
    (r : Str × List Str × GenState),
    generateHtmlF fs cdir f1 c v d st = some r →
    generateHtmlF fs cdir f2 c v d st = some r := by
  induction hle with
  | refl => intro c v d st r h; exact h
  | step _ ih =>
    intro c v d st r h
    exact genF_mono fs cdir _ c v d st r (ih c v d st r h)

/-! ## The visited set only grows -/

theorem loadF_visited_of (fs : FS) (cdir : Str) (fuel : Nat)
    (H : ∀ c v d st out v' st',
      generateHtmlF fs cdir fuel c v d st = some (out, v', st') → v ⊆ v')
    (name : Str) (v : List Str) (d : Option Str) (st : GenState)
    (cc : Str) (v2 : List Str) (st2 : GenState)
    (h : loadComponentF fs cdir fuel name v d st = some (cc, v2, st2)) :
    v ⊆ v2 := by
  unfold loadComponentF at h
  cases hcc : lookupAssoc st.contentCache name with
  | some cached =>
    simp only [hcc, Option.some.injEq, Prod.mk.injEq] at h
    obtain ⟨-, rfl, -⟩ := h
    exact fun x hx => hx
  | none =>
    simp only [hcc] at h
    cases hfr : findComponentFile fs cdir d name st.pathCache with
    | mk pathv cache2 probes =>
      simp only [hfr] at h
      cases pathv with
      | none =>
        simp only [Option.some.injEq, Prod.mk.injEq] at h
        obtain ⟨-, rfl, -⟩ := h
        exact fun x hx => hx
      | some cp =>
        cases hrd : readFS fs cp with
        | none =>
          simp only [hrd, Option.some.injEq, Prod.mk.injEq] at h
          obtain ⟨-, rfl, -⟩ := h
          exact fun x hx => hx
        | some fc =>
          simp only [hrd] at h
          cases hg : generateHtmlF fs cdir fuel fc v (parentDir cp)
              ⟨st.contentCache, cache2⟩ with
          | none => simp only [hg] at h; exact absurd h (by simp)
          | some rr =>
            obtain ⟨ren, vr, str⟩ := rr
            simp only [hg, Option.some.injEq, Prod.mk.injEq] at h
            obtain ⟨-, rfl, -⟩ := h
            exact H _ _ _ _ _ _ _ hg

theorem genF_visited (fs : FS) (cdir : Str) : ∀ (fuel : Nat) (c : Str)
    (v : List Str) (d : Option Str) (st : GenState) (out : Str)
    (v' : List Str) (st' : GenState),
    generateHtmlF fs cdir fuel c v d st = some (out, v', st') → v ⊆ v' := by
  intro fuel
  induction fuel with
  | zero => intro c v d st out v' st' h; simp [generateHtmlF] at h
  | succ fuel ih =>
    intro c v d st out v' st' h
    rw [generateHtmlF_succ] at h
    cases hft : findTag c with
    | none =>
      simp only [hft, Option.some.injEq, Prod.mk.injEq] at h
      obtain ⟨-, rfl, -⟩ := h
      exact fun x hx => hx
    | some pr =>
      obtain ⟨full, name⟩ := pr
      simp only [hft] at h
      by_cases hv : name ∈ v
      · rw [if_pos hv] at h
        exact ih _ _ _ _ _ _ _ h
      · rw [if_neg hv] at h
        cases hld : loadComponentF fs cdir fuel name (name :: v) d st with
        | none => simp only [hld] at h; exact absurd h (by simp)
        | some lr =>
          obtain ⟨cc, v2, st2⟩ := lr
          simp only [hld] at h
          have h1 : (name :: v) ⊆ v2 :=
            loadF_visited_of fs cdir fuel ih name (name :: v) d st cc v2 st2 hld
          have h2 : v2 ⊆ v' := ih _ _ _ _ _ _ _ h
          exact fun x hx => h2 (h1 (List.mem_cons_of_mem _ hx))

/-! ## The renderer preserves the state invariant -/

theorem stateOK_mk (fs : FS) (D : Nat) (cc : List (Str × Str))
    (pc : PathCache) :
    stateOK fs D ⟨cc, pc⟩ = true ↔
    pc.all (pathEntryOK fs D) = true ∧
    cc.all (fun e => decide (e.1.length ≤ nameLenBound fs D)) = true := by
  unfold stateOK
  rw [Bool.and_eq_true]

theorem dirOK_parent (fs : FS) (D : Nat) (p : Str)
    (hD : pathLenBound fs ≤ D) (hp : p ∈ fsPaths fs) :
    dirOK D (parentDir p) = true := by
  cases hpd : parentDir p with
  | none => rfl
  | some dd =>
    simp only [dirOK, decide_eq_true_eq]
    have h1 := parentDir_len p dd hpd
    have h2 := maxLenL_le_of_mem (fsPaths fs) p hp
    unfold pathLenBound at hD
    omega

theorem loadF_stateOK_of (fs : FS) (cdir : Str) (D fuel : Nat)
    (hD : pathLenBound fs ≤ D)
    (H : ∀ c v d st out v' st', dirOK D d = true → stateOK fs D st = true →
      generateHtmlF fs cdir fuel c v d st = some (out, v', st') →
      stateOK fs D st' = true)
    (name : Str) (v : List Str) (d : Option Str) (st : GenState)
    (cc : Str) (v2 : List Str) (st2 : GenState)
    (hdir : dirOK D d = true) (hst : stateOK fs D st = true)
    (h : loadComponentF fs cdir fuel name v d st = some (cc, v2, st2)) :
    stateOK fs D st2 = true := by
  obtain ⟨hpc, hcck⟩ : st.pathCache.all (pathEntryOK fs D) = true ∧
      st.contentCache.all
        (fun e => decide (e.1.length ≤ nameLenBound fs D)) = true := by
    have := hst
    unfold stateOK at this
    exact Bool.and_eq_true .. |>.mp this
  unfold loadComponentF at h
  cases hcc : lookupAssoc st.contentCache name with
  | some cached =>
    simp only [hcc, Option.some.injEq, Prod.mk.injEq] at h
    obtain ⟨-, -, rfl⟩ := h
    exact hst
  | none =>
    simp only [hcc] at h
    cases hfr : findComponentFile fs cdir d name st.pathCache with
    | mk pathv cache2 probes =>
      have hc2 : cache2.all (pathEntryOK fs D) = true := by
        have := findCF_cacheOK fs cdir D d name st.pathCache hdir hpc
        rw [hfr] at this
        exact this
      simp only [hfr] at h
      cases pathv with
      | none =>
        simp only [Option.some.injEq, Prod.mk.injEq] at h
        obtain ⟨-, -, rfl⟩ := h
        exact (stateOK_mk fs D _ _).mpr ⟨hc2, hcck⟩
      | some cp =>
        have hfound : cp ∈ fsPaths fs ∧ name.length ≤ nameLenBound fs D := by
          apply findCF_found fs cdir D d name st.pathCache cp hpc
          rw [hfr]
        cases hrd : readFS fs cp with
        | none =>
          simp only [hrd, Option.some.injEq, Prod.mk.injEq] at h
          obtain ⟨-, -, rfl⟩ := h
          exact (stateOK_mk fs D _ _).mpr ⟨hc2, hcck⟩
        | some fc =>
          simp only [hrd] at h
          cases hg : generateHtmlF fs cdir fuel fc v (parentDir cp)
              ⟨st.contentCache, cache2⟩ with
          | none => simp only [hg] at h; exact absurd h (by simp)
          | some rr =>
            obtain ⟨ren, vr, str⟩ := rr
            simp only [hg, Option.some.injEq, Prod.mk.injEq] at h
            obtain ⟨-, -, rfl⟩ := h
            have hstr : stateOK fs D str = true := by
              apply H fc v (parentDir cp) ⟨st.contentCache, cache2⟩ ren vr str
              · exact dirOK_parent fs D cp hD hfound.1
              · exact (stateOK_mk fs D _ _).mpr ⟨hc2, hcck⟩
              · exact hg
            obtain ⟨hstrp, hstrc⟩ := (stateOK_mk fs D _ _).mp
              (by simpa using hstr)
            refine (stateOK_mk fs D _ _).mpr ⟨hstrp, ?_⟩
            unfold insertAssoc
            rw [List.all_cons, Bool.and_eq_true]
            exact ⟨by simpa using hfound.2, hstrc⟩

theorem genF_stateOK (fs : FS) (cdir : Str) (D : Nat)
    (hD : pathLenBound fs ≤ D) : ∀ (fuel : Nat) (c : Str) (v : List Str)
    (d : Option Str) (st : GenState) (out : Str) (v' : List Str)
    (st' : GenState), dirOK D d = true → stateOK fs D st = true →
    generateHtmlF fs cdir fuel c v d st = some (out, v', st') →
    stateOK fs D st' = true := by
  intro fuel
  induction fuel with
  | zero => intro c v d st out v' st' _ _ h; simp [generateHtmlF] at h
  | succ fuel ih =>
    intro c v d st out v' st' hdir hst h
    rw [generateHtmlF_succ] at h
    cases hft : findTag c with
    | none =>
      simp only [hft, Option.some.injEq, Prod.mk.injEq] at h
      obtain ⟨-, -, rfl⟩ := h
      exact hst
    | some pr =>
      obtain ⟨full, name⟩ := pr
      simp only [hft] at h
      by_cases hv : name ∈ v
      · rw [if_pos hv] at h
        exact ih _ _ _ _ _ _ _ hdir hst h
      · rw [if_neg hv] at h
        cases hld : loadComponentF fs cdir fuel name (name :: v) d st with
        | none => simp only [hld] at h; exact absurd h (by simp)
        | some lr =>
          obtain ⟨cc, v2, st2⟩ := lr
          simp only [hld] at h
          have hst2 : stateOK fs D st2 = true :=
            loadF_stateOK_of fs cdir D fuel hD ih name (name :: v) d st
              cc v2 st2 hdir hst hld
          exact ih _ _ _ _ _ _ _ hdir hst2 h

/-! ## Termination of the renderer

The renderer terminates on every input because each iteration of its loop
either strictly shrinks the set of resolvable component names not yet in
`visited` (when a component is expanded or served from the content cache —
such a name is always short, hence drawn from a finite universe), or
strictly decreases the number of quote characters in the working string
(when a tag is replaced by one of the quote-free diagnostic comments, which
consumes the tag's two quote characters). -/

theorem char_toNat_lt (c : Char) : c.toNat < 1114112 := by
  have h := c.valid
  unfold UInt32.isValidChar Nat.isValidChar at h
  rcases h with h | h
  · exact Nat.lt_trans h (by norm_num)
  · exact h.2

theorem char_finite : Finite Char :=
  Finite.of_injective (fun c : Char => (⟨c.toNat, char_toNat_lt c⟩ : Fin 1114112))
    (fun a b h => by
      apply Char.ext
      apply UInt32.toNat.inj
      simpa using congrArg Fin.val h)

/-- There are only finitely many strings of bounded length. -/
theorem strFinite (B : Nat) : {n : Str | n.length ≤ B}.Finite := by
  have : Finite Char := char_finite
  exact List.finite_length_le Char B

theorem mem_strFinset (B : Nat) (n : Str) :
    n ∈ (strFinite B).toFinset ↔ n.length ≤ B := by
  rw [Set.Finite.mem_toFinset]
  exact Iff.rfl

theorem card_sdiff_cons_lt (univF : Finset Str) (v : List Str) (name : Str)
    (hU : name ∈ univF) (hv : name ∉ v) :
    (univF \ (name :: v).toFinset).card < (univF \ v.toFinset).card := by
  have hmem : name ∈ univF \ v.toFinset :=
    Finset.mem_sdiff.mpr ⟨hU, by simpa using hv⟩
  rw [List.toFinset_cons, Finset.sdiff_insert]
  exact Finset.card_erase_lt_of_mem hmem

theorem card_sdiff_subset_le (univF : Finset Str) (v w : List Str)
    (hsub : v ⊆ w) :
    (univF \ w.toFinset).card ≤ (univF \ v.toFinset).card := by
  apply Finset.card_le_card
  intro x hx
  rw [Finset.mem_sdiff] at hx ⊢
  refine ⟨hx.1, fun hxv => hx.2 ?_⟩
  rw [List.mem_toFinset] at hxv ⊢
  exact hsub hxv

/-! ## Branch equations for `load_component` and the renderer's loop step -/

/-- A content-cache hit: `load_component` answers from the cache at once,
for any filesystem, any current directory and any fuel, and leaves the
whole state — the path cache included — untouched. -/
theorem loadF_cache_hit (fs : FS) (cdir : Str) (fuel : Nat) (name : Str)
    (v : List Str) (d : Option Str) (st : GenState) (cached : Str)
    (hcc : lookupAssoc st.contentCache name = some cached) :
    loadComponentF fs cdir fuel name v d st = some (cached, v, st) := by
  unfold loadComponentF
  rw [hcc]

/-- Failed resolution: `load_component` substitutes the not-found
placeholder and records the negative cache entry. -/
theorem loadF_notFound (fs : FS) (cdir : Str) (fuel : Nat) (name : Str)
    (v : List Str) (d : Option Str) (st : GenState) (cache2 : PathCache)
    (probes : Nat)
    (hcc : lookupAssoc st.contentCache name = none)
    (hfr : findComponentFile fs cdir d name st.pathCache =
      ⟨none, cache2, probes⟩) :
    loadComponentF fs cdir fuel name v d st =
      some (notFoundComment name, v, ⟨st.contentCache, cache2⟩) := by
  simp only [loadComponentF, hcc, hfr]

/-- Unreadable component file: `load_component` substitutes the read-failure
placeholder. -/
theorem loadF_readFail (fs : FS) (cdir : Str) (fuel : Nat) (name : Str)
    (v : List Str) (d : Option Str) (st : GenState) (cp : Str)
    (cache2 : PathCache) (probes : Nat)
    (hcc : lookupAssoc st.contentCache name = none)
    (hfr : findComponentFile fs cdir d name st.pathCache =
      ⟨some cp, cache2, probes⟩)
    (hrd : readFS fs cp = none) :
    loadComponentF fs cdir fuel name v d st =
      some (readFailComment name, v, ⟨st.contentCache, cache2⟩) := by
  simp only [loadComponentF, hcc, hfr, hrd]

/-- Successful load: the component file is rendered recursively under its
own parent directory and the result is cached under the bare name. -/
theorem loadF_render (fs : FS) (cdir : Str) (fuel : Nat) (name : Str)
    (v : List Str) (d : Option Str) (st : GenState) (cp : Str)
    (cache2 : PathCache) (probes : Nat) (fc ren : Str) (vr : List Str)
    (str : GenState)
    (hcc : lookupAssoc st.contentCache name = none)
    (hfr : findComponentFile fs cdir d name st.pathCache =
      ⟨some cp, cache2, probes⟩)
    (hrd : readFS fs cp = some fc)
    (hg : generateHtmlF fs cdir fuel fc v (parentDir cp)
      ⟨st.contentCache, cache2⟩ = some (ren, vr, str)) :
    loadComponentF fs cdir fuel name v d st =
      some (ren, vr,
        ⟨insertAssoc str.contentCache name ren, str.pathCache⟩) := by
  simp only [loadComponentF, hcc, hfr, hrd, hg]

/-- The loop step on a tag whose name is already in `visited`: every
occurrence of the matched tag text is replaced by the circular-dependency
placeholder, unconditionally — the content cache is not consulted and the
name is not expanded. -/
theorem genF_step_flag (fs : FS) (cdir : Str) (fuel : Nat) (c : Str)
    (v : List Str) (d : Option Str) (st : GenState) (full name : Str)
    (hft : findTag c = some (full, name)) (hv : name ∈ v) :
    generateHtmlF fs cdir (fuel + 1) c v d st =
      generateHtmlF fs cdir fuel (replaceAll full (circComment name) c)
        v d st := by
  rw [generateHtmlF_succ]
  simp only [hft, if_pos hv]

/-- The loop step on a fresh tag: the name goes into `visited`, the
component is loaded, and every occurrence of the matched tag text is
replaced by the loaded markup. -/
theorem genF_step_load (fs : FS) (cdir : Str) (fuel : Nat) (c : Str)
    (v : List Str) (d : Option Str) (st : GenState) (full name cc : Str)
    (v2 : List Str) (st2 : GenState)
    (hft : findTag c = some (full, name)) (hv : name ∉ v)
    (hld : loadComponentF fs cdir fuel name (name :: v) d st =
      some (cc, v2, st2)) :
    generateHtmlF fs cdir (fuel + 1) c v d st =
      generateHtmlF fs cdir fuel (replaceAll full cc c) v2 d st2 := by
  rw [generateHtmlF_succ]
  simp only [hft, if_neg hv, hld]

/-- The loop step on input with no tag match: the input is returned. -/
theorem genF_step_done (fs : FS) (cdir : Str) (fuel : Nat) (c : Str)
    (v : List Str) (d : Option Str) (st : GenState)
    (hft : findTag c = none) :
    generateHtmlF fs cdir (fuel + 1) c v d st = some (c, v, st) := by
  rw [generateHtmlF_succ]
  simp only [hft]

/-- Totality of the renderer: from any starting configuration whose state
satisfies the length invariant (in particular from the empty caches of a
fresh `HtmlGenerator`), some finite fuel makes `generateHtmlF` return.  The
induction is on the pair (number of sufficiently short names not yet
visited, number of quote characters in the working string), ordered
lexicographically. -/
theorem genF_total (fs : FS) (cdir : Str) (D : Nat)
    (hD : pathLenBound fs ≤ D) :
    ∀ (K Q : Nat) (c : Str) (v : List Str) (d : Option Str) (st : GenState),
    ((strFinite (nameLenBound fs D)).toFinset \ v.toFinset).card ≤ K →
    countQ c ≤ Q → dirOK D d = true → stateOK fs D st = true →
    ∃ fuel r, generateHtmlF fs cdir fuel c v d st = some r := by
  intro K
  induction K using Nat.strong_induction_on with
  | _ K ihK =>
    intro Q
    induction Q using Nat.strong_induction_on with
    | _ Q ihQ =>
      intro c v d st hK hQ hdir hst
      cases hft : findTag c with
      | none => exact ⟨0 + 1, (c, v, st), genF_step_done fs cdir 0 c v d st hft⟩
      | some pr =>
        obtain ⟨full, name⟩ := pr
        obtain ⟨⟨pre, post, hsplit⟩, hq2, hnmq, -⟩ :=
          findTag_sound c full name hft
        have hqc : 2 ≤ countQ c := countQ_ge_two_of_findTag c full name hft
        by_cases hv : name ∈ v
        · have hdec : countQ (replaceAll full (circComment name) c) + 2 ≤
              countQ c :=
            replaceAll_countQ_decr full (circComment name) c
              ⟨pre, post, hsplit⟩ hq2 (countQ_circComment name hnmq)
          obtain ⟨fuel, r, hr⟩ :=
            ihQ (countQ (replaceAll full (circComment name) c)) (by omega)
              _ v d st hK (Nat.le_refl _) hdir hst
          exact ⟨fuel + 1, r, by
            rw [genF_step_flag fs cdir fuel c v d st full name hft hv]
            exact hr⟩
        · have hst' := hst
          unfold stateOK at hst'
          obtain ⟨hpc, hcck⟩ := Bool.and_eq_true .. |>.mp hst'
          cases hcc : lookupAssoc st.contentCache name with
          | some cached =>
            have hmemc := lookupAssoc_mem st.contentCache name cached hcc
            have hlen : name.length ≤ nameLenBound fs D := by
              have := (List.all_eq_true.mp hcck) _ hmemc
              simpa using this
            have hU : name ∈ (strFinite (nameLenBound fs D)).toFinset :=
              (mem_strFinset _ _).mpr hlen
            have hlt := card_sdiff_cons_lt
              ((strFinite (nameLenBound fs D)).toFinset) v name hU hv
            obtain ⟨fuel, r, hr⟩ :=
              ihK ((strFinite (nameLenBound fs D)).toFinset \
                  (name :: v).toFinset).card (by omega)
                (countQ (replaceAll full cached c)) _ (name :: v) d st
                (Nat.le_refl _) (Nat.le_refl _) hdir hst
            refine ⟨fuel + 1, r, ?_⟩
            rw [genF_step_load fs cdir fuel c v d st full name cached
              (name :: v) st hft hv
              (loadF_cache_hit fs cdir fuel name (name :: v) d st cached hcc)]
            exact hr
          | none =>
            cases hfr : findComponentFile fs cdir d name st.pathCache with
            | mk pathv cache2 probes =>
              have hc2 : cache2.all (pathEntryOK fs D) = true := by
                have := findCF_cacheOK fs cdir D d name st.pathCache hdir hpc
                rw [hfr] at this
                exact this
              have hst1 : stateOK fs D ⟨st.contentCache, cache2⟩ = true :=
                (stateOK_mk fs D _ _).mpr ⟨hc2, hcck⟩
              cases pathv with
              | none =>
                have hdec : countQ (replaceAll full (notFoundComment name) c)
                    + 2 ≤ countQ c :=
                  replaceAll_countQ_decr full _ c ⟨pre, post, hsplit⟩ hq2
                    (countQ_notFoundComment name hnmq)
                have hcard : ((strFinite (nameLenBound fs D)).toFinset \
                    (name :: v).toFinset).card ≤ K :=
                  Nat.le_trans
                    (card_sdiff_subset_le _ v (name :: v)
                      (fun x hx => List.mem_cons_of_mem _ hx)) hK
                obtain ⟨fuel, r, hr⟩ :=
                  ihQ (countQ (replaceAll full (notFoundComment name) c))
                    (by omega) _ (name :: v) d ⟨st.contentCache, cache2⟩
                    hcard (Nat.le_refl _) hdir hst1
                refine ⟨fuel + 1, r, ?_⟩
                rw [genF_step_load fs cdir fuel c v d st full name _
                  (name :: v) ⟨st.contentCache, cache2⟩ hft hv
                  (loadF_notFound fs cdir fuel name (name :: v) d st cache2
                    probes hcc hfr)]
                exact hr
              | some cp =>
                have hfound : cp ∈ fsPaths fs ∧
                    name.length ≤ nameLenBound fs D := by
                  apply findCF_found fs cdir D d name st.pathCache cp hpc
                  rw [hfr]
                have hU : name ∈ (strFinite (nameLenBound fs D)).toFinset :=
                  (mem_strFinset _ _).mpr hfound.2
                have hlt := card_sdiff_cons_lt
                  ((strFinite (nameLenBound fs D)).toFinset) v name hU hv
                cases hrd : readFS fs cp with
                | none =>
                  have hdec : countQ (replaceAll full (readFailComment name) c)
                      + 2 ≤ countQ c :=
                    replaceAll_countQ_decr full _ c ⟨pre, post, hsplit⟩ hq2
                      (countQ_readFailComment name hnmq)
                  have hcard : ((strFinite (nameLenBound fs D)).toFinset \
                      (name :: v).toFinset).card ≤ K :=
                    Nat.le_trans
                      (card_sdiff_subset_le _ v (name :: v)
                        (fun x hx => List.mem_cons_of_mem _ hx)) hK
                  obtain ⟨fuel, r, hr⟩ :=
                    ihQ (countQ (replaceAll full (readFailComment name) c))
                      (by omega) _ (name :: v) d ⟨st.contentCache, cache2⟩
                      hcard (Nat.le_refl _) hdir hst1
                  refine ⟨fuel + 1, r, ?_⟩
                  rw [genF_step_load fs cdir fuel c v d st full name _
                    (name :: v) ⟨st.contentCache, cache2⟩ hft hv
                    (loadF_readFail fs cdir fuel name (name :: v) d st cp
                      cache2 probes hcc hfr hrd)]
                  exact hr
                | some fc =>
                  have hdirp : dirOK D (parentDir cp) = true :=
                    dirOK_parent fs D cp hD hfound.1
                  obtain ⟨f1, r1, h1⟩ :=
                    ihK ((strFinite (nameLenBound fs D)).toFinset \
                        (name :: v).toFinset).card (by omega)
                      (countQ fc) fc (name :: v) (parentDir cp)
                      ⟨st.contentCache, cache2⟩ (Nat.le_refl _)
                      (Nat.le_refl _) hdirp hst1
                  obtain ⟨ren, vr, str⟩ := r1
                  have hstr : stateOK fs D str = true :=
                    genF_stateOK fs cdir D hD f1 fc (name :: v)
                      (parentDir cp) ⟨st.contentCache, cache2⟩ ren vr str
                      hdirp hst1 h1
                  have hvsub : (name :: v) ⊆ vr :=
                    genF_visited fs cdir f1 fc (name :: v) (parentDir cp)
                      ⟨st.contentCache, cache2⟩ ren vr str h1
                  have hstr' := hstr
                  unfold stateOK at hstr'
                  obtain ⟨hstrp, hstrc⟩ := Bool.and_eq_true .. |>.mp hstr'
                  have hst3 : stateOK fs D
                      ⟨insertAssoc str.contentCache name ren,
                        str.pathCache⟩ = true := by
                    apply (stateOK_mk fs D _ _).mpr
                    refine ⟨hstrp, ?_⟩
                    unfold insertAssoc
                    rw [List.all_cons, Bool.and_eq_true]
                    exact ⟨by simpa using hfound.2, hstrc⟩
                  have hcard2 : ((strFinite (nameLenBound fs D)).toFinset \
                      vr.toFinset).card ≤
                      ((strFinite (nameLenBound fs D)).toFinset \
                        (name :: v).toFinset).card :=
                    card_sdiff_subset_le _ _ _ hvsub
                  obtain ⟨f2, r, h2⟩ :=
                    ihK ((strFinite (nameLenBound fs D)).toFinset \
                        (name :: v).toFinset).card (by omega)
                      (countQ (replaceAll full ren c)) (replaceAll full ren c)
                      vr d ⟨insertAssoc str.contentCache name ren,
                        str.pathCache⟩ hcard2 (Nat.le_refl _) hdir hst3
                  refine ⟨max f1 f2 + 1, r, ?_⟩
                  have h1' := genF_mono_le fs cdir (Nat.le_max_left f1 f2)
                    _ _ _ _ _ h1
                  have h2' := genF_mono_le fs cdir (Nat.le_max_right f1 f2)
                    _ _ _ _ _ h2
                  rw [genF_step_load fs cdir (max f1 f2) c v d st full name
                    ren vr _ hft hv
                    (loadF_render fs cdir (max f1 f2) name (name :: v) d st
                      cp cache2 probes fc ren vr str hcc hfr hrd h1')]
                  exact h2'

/-! ## The claims -/

/-- C1, counterexample.  The claim asserts that on an acyclic inclusion
graph in which every referenced component resolves to a readable file, the
output contains no diagnostic placeholder, because a component's name is
removed from `visited` when its expansion completes.  It is false: in
`fsDiamond` the graph is acyclic (the single component `A` is static and
readable), yet rendering a page with two sibling inclusions of `A` flags
the second inclusion as a circular dependency — the name is never removed
from `visited`, and the visited check precedes the content-cache lookup. -/
theorem C1_counterexample :
    (generateHtmlF fsDiamond "comps".data 8 pageTwiceA [] none
      ⟨[], []⟩).map (fun r => (r.1, containsSubstr r.1 circMark)) =
    some ("hello<!-- Circular dependency: A -->".data, true) := by decide

/-- C1, amended.  A component's name is never removed from the visited set:
the set only grows across a render (first conjunct), and whenever the
leftmost tag names an already-visited component the renderer replaces that
tag text with the circular-dependency placeholder — without consulting the
content cache and without expanding the component (second conjunct).
Consequently a later inclusion of an already-expanded component on a
different branch, whose tag text differs from the first, is flagged as
circular rather than expanded or served from the cache. -/
theorem C1_visited_never_removed :
    (∀ (fs : FS) (componentsDir : Str) (fuel : Nat) (content : Str)
      (visited : List Str) (currentComponentDir : Option Str)
      (st : GenState) (out : Str) (visited' : List Str) (st' : GenState),
      generateHtmlF fs componentsDir fuel content visited
        currentComponentDir st = some (out, visited', st') →
      visited ⊆ visited') ∧
    (∀ (fs : FS) (componentsDir : Str) (fuel : Nat) (content : Str)
      (visited : List Str) (currentComponentDir : Option Str)
      (st : GenState) (fullMatch componentName : Str),
      findTag content = some (fullMatch, componentName) →
      componentName ∈ visited →
      generateHtmlF fs componentsDir (fuel + 1) content visited
        currentComponentDir st =
      generateHtmlF fs componentsDir fuel
        (replaceAll fullMatch (circComment componentName) content)
        visited currentComponentDir st) :=
  ⟨fun fs cdir fuel c v d st out v' st' h =>
      genF_visited fs cdir fuel c v d st out v' st' h,
    fun fs cdir fuel c v d st full name hft hv =>
      genF_step_flag fs cdir fuel c v d st full name hft hv⟩

/-- C1, witness for the amended claim's hypotheses at concrete inputs. -/
theorem C1_witness :
    (([] : List Str) ⊆ []) ∧
    (generateHtmlF fsDiamond "comps".data (0 + 1) tagSingleQuoteA
      ["A".data] none ⟨[], []⟩ =
    generateHtmlF fsDiamond "comps".data 0
      (replaceAll tagSingleQuoteA (circComment "A".data) tagSingleQuoteA)
      ["A".data] none ⟨[], []⟩) :=
  ⟨C1_visited_never_removed.1 fsEmpty "comps".data 1 "x".data [] none
      ⟨[], []⟩ "x".data [] ⟨[], []⟩ (by decide),
    C1_visited_never_removed.2 fsDiamond "comps".data 0 tagSingleQuoteA
      ["A".data] none ⟨[], []⟩ tagSingleQuoteA "A".data (by decide)
      (by decide)⟩

/-- C2, counterexample.  The claim asserts that rendering a page including
a self-referential component yields exactly one circular-dependency
placeholder.  In `fsSelfTwice` component `A` re-enters the cycle through
two distinct tag occurrences, and the output carries two placeholders. -/
theorem C2_counterexample :
    (generateHtmlF fsSelfTwice "comps".data 8 pageIncludeA [] none
      ⟨[], []⟩).map (fun r => countOccur r.1 circMark) = some 2 := by decide

/-- C2, amended.  Each tag occurrence that re-enters the active inclusion
chain is replaced by one circular-dependency placeholder; in particular,
for the specification's end-to-end cycle — `A` includes `B` once and `B`
includes `A` once — rendering a page that includes `A` terminates and
produces exactly one placeholder together with the full static content of
both components. -/
theorem C2_cycle_single_diagnostic :
    (generateHtmlF fsCycleAB "comps".data 10 pageIncludeA [] none
      ⟨[], []⟩).map (fun r => r.1) =
      some "<div>A</div><p>B</p><!-- Circular dependency: A -->".data ∧
    countOccur "<div>A</div><p>B</p><!-- Circular dependency: A -->".data
      circMark = 1 ∧
    containsSubstr
      "<div>A</div><p>B</p><!-- Circular dependency: A -->".data
      "<div>A</div>".data = true ∧
    containsSubstr
      "<div>A</div><p>B</p><!-- Circular dependency: A -->".data
      "<p>B</p>".data = true := by
  refine ⟨by decide, by decide, by decide, by decide⟩

/-- C3.  `generate_html` terminates on every input over every finite
filesystem, cyclic inclusion graphs included: whenever the initial state
satisfies the length invariant (the empty caches of a fresh generator do,
for any directory bound at least `pathLenBound`), some finite fuel makes
the embedded renderer return, and every larger fuel returns the same
result.  A name can be in progress at most once (it enters `visited` before
its load and is never re-expanded while present), so the mutual recursion
of `generate_html` and `load_component` and the outer replace loop cannot
run forever. -/
theorem C3_terminates (fs : FS) (componentsDir : Str) (content : Str)
    (visited : List Str) (currentComponentDir : Option Str) (st : GenState)
    (D : Nat) (hD : pathLenBound fs ≤ D)
    (hdir : dirOK D currentComponentDir = true)
    (hst : stateOK fs D st = true) :
    ∃ fuel r, generateHtmlF fs componentsDir fuel content visited
        currentComponentDir st = some r ∧
      ∀ fuel', fuel ≤ fuel' →
        generateHtmlF fs componentsDir fuel' content visited
          currentComponentDir st = some r := by
  obtain ⟨fuel, r, hr⟩ := genF_total fs componentsDir D hD
    ((strFinite (nameLenBound fs D)).toFinset \ visited.toFinset).card
    (countQ content) content visited currentComponentDir st
    (Nat.le_refl _) (Nat.le_refl _) hdir hst
  exact ⟨fuel, r, hr,
    fun fuel' hf => genF_mono_le fs componentsDir hf _ _ _ _ _ hr⟩

/-- C3, witness: termination on the cyclic two-component filesystem from a
fresh generator state. -/
theorem C3_witness :
    ∃ fuel r, generateHtmlF fsCycleAB "comps".data fuel pageIncludeA []
        none ⟨[], []⟩ = some r ∧
      ∀ fuel', fuel ≤ fuel' →
        generateHtmlF fsCycleAB "comps".data fuel' pageIncludeA [] none
          ⟨[], []⟩ = some r :=
  C3_terminates fsCycleAB "comps".data pageIncludeA [] none ⟨[], []⟩
    (pathLenBound fsCycleAB) (Nat.le_refl _) (by decide) (by decide)

/-- C4.  In watch mode the dev server never re-invokes the build and never
clears the renderer caches: the only reaction of `DevServer::start` to a
delivered filesystem event is the watcher callback, which publishes the
classified `FileChange` values on the broadcast channel and does nothing
else.  The first conjunct states this for every state and event; the second
evaluates the reaction to a concrete modification of a content file,
showing a lone publish action — no rebuild, no cache invalidation, no error
republishing. -/
theorem C4_no_rebuild_on_change :
    (∀ (ws : WatcherState) (now : Nat) (e : NotifyEvent),
      ((devServerOnEvent ws now e).2).all
        (fun a => match a with
          | DevAction.publishChange _ => true
          | _ => false) = true) ∧
    devServerOnEvent ⟨0, []⟩ 200 ⟨NotifyKind.modify, ["index.html".data]⟩ =
      (⟨200, ["index.html".data]⟩,
        [DevAction.publishChange ⟨"index.html".data, ChangeType.modify⟩]) := by
  constructor
  · intro ws now e
    refine List.all_eq_true.mpr ?_
    intro a ha
    simp only [devServerOnEvent] at ha
    rw [List.mem_map] at ha
    obtain ⟨c, -, rfl⟩ := ha
    rfl
  · decide

/-- C5.  Batch-build failure policy of `process_files`: the written outputs
are exactly the successful jobs, regardless of failures elsewhere (first
conjunct — one job's failure stops no other job); when at least one job
failed, the batch reports overall failure after logging the full list of
per-file errors, and the site-wide generators do not run (second conjunct);
when every job succeeded, the sitemap/RSS/robots generators run exactly
when SEO is enabled and configured, over the aggregate output list (third
conjunct). -/
theorem C5_batch_failure_policy :
    ∀ (jobs : List (Except Str Str)) (enableSeo seoPresent : Bool)
      (seoGen : List Str → Except Str Unit),
      (processFiles jobs enableSeo seoPresent seoGen).written =
        jobs.filterMap jobOk ∧
      (jobs.filterMap jobErr ≠ [] →
        (processFiles jobs enableSeo seoPresent seoGen).result =
          Except.error "Some files failed to process".data ∧
        (processFiles jobs enableSeo seoPresent seoGen).logged =
          "Failed to process some files:".data :: jobs.filterMap jobErr ∧
        (processFiles jobs enableSeo seoPresent seoGen).seoInvoked =
          false) ∧
      (jobs.filterMap jobErr = [] →
        (processFiles jobs enableSeo seoPresent seoGen).result =
          (if enableSeo && seoPresent then seoGen (jobs.filterMap jobOk)
            else Except.ok ()) ∧
        (processFiles jobs enableSeo seoPresent seoGen).seoInvoked =
          (enableSeo && seoPresent)) := by
  intro jobs es ss g
  by_cases he : (jobs.filterMap jobErr).isEmpty = true
  · have he' : jobs.filterMap jobErr = [] := by
      rwa [List.isEmpty_iff] at he
    refine ⟨?_, fun hne => absurd he' hne, fun _ => ⟨?_, ?_⟩⟩ <;>
      by_cases hseo : (es && ss) = true <;>
      simp [processFiles, he, hseo]
  · have heb : (jobs.filterMap jobErr).isEmpty = false :=
      Bool.eq_false_iff.mpr he
    have he' : jobs.filterMap jobErr ≠ [] := by
      intro hnil
      rw [hnil] at heb
      simp at heb
    refine ⟨?_, fun _ => ⟨?_, ?_, ?_⟩, fun hnil => absurd hnil he'⟩ <;>
      simp [processFiles, heb]

/-- C5, witness: a batch with one failing job (second conjunct) and a fully
successful batch with SEO enabled (third conjunct). -/
theorem C5_witness :
    ((processFiles [Except.ok "out/a.html".data,
        Except.error "boom".data, Except.ok "out/b.html".data]
        true true (fun _ => Except.ok ())).result =
      Except.error "Some files failed to process".data ∧
    (processFiles [Except.ok "out/a.html".data, Except.error "boom".data,
        Except.ok "out/b.html".data] true true
        (fun _ => Except.ok ())).logged =
      "Failed to process some files:".data :: ["boom".data] ∧
    (processFiles [Except.ok "out/a.html".data, Except.error "boom".data,
        Except.ok "out/b.html".data] true true
        (fun _ => Except.ok ())).seoInvoked = false) ∧
    ((processFiles [Except.ok "out/a.html".data] true true
        (fun _ => Except.ok ())).result =
      (if true && true then (fun _ => Except.ok ()) ["out/a.html".data]
        else Except.ok ()) ∧
    (processFiles [Except.ok "out/a.html".data] true true
        (fun _ => Except.ok ())).seoInvoked = (true && true)) :=
  ⟨by
    have h := (C5_batch_failure_policy
      [Except.ok "out/a.html".data, Except.error "boom".data,
        Except.ok "out/b.html".data] true true
      (fun _ => Except.ok ())).2.1 (by decide)
    exact h,
   by
    have h := (C5_batch_failure_policy [Except.ok "out/a.html".data]
      true true (fun _ => Except.ok ())).2.2 (by decide)
    exact h⟩

/-- A single-path modify event publishes at most one `FileChange`. -/
theorem watcherStep_single_pub (ws : WatcherState) (now : Nat) (p : Str) :
    ((watcherStep ws now ⟨NotifyKind.modify, [p]⟩).2).length ≤ 1 := by
  unfold watcherStep
  by_cases hd : now - ws.lastEvent < debounceMillis
  · rw [if_pos hd]
    simp
  · rw [if_neg hd]
    by_cases hcss : hasCssPath [p] = true <;> simp [classifyEvent, hcss]

/-- C6, counterexample.  The claim accepts an event only when the elapsed
time strictly exceeds the 100 ms debounce interval; the code accepts at
exactly 100 ms: with `last_event = 0`, a modify event arriving at t = 100
is published even though 100 ms have not been exceeded. -/
theorem C6_counterexample :
    watcherStep ⟨0, []⟩ 100 ⟨NotifyKind.modify, ["page.html".data]⟩ =
      (⟨100, ["page.html".data]⟩,
        [⟨"page.html".data, ChangeType.modify⟩]) ∧
    ¬ debounceMillis < 100 - 0 := by
  exact ⟨by decide, by decide⟩

/-- C6, amended.  An incoming event is accepted only when the time since
the last accepted event is at least (not strictly more than) the 100 ms
debounce interval (first conjunct: any publication implies
`debounceMillis ≤ now - last_event`); and for two single-path low-level
modify events fired within one debounce window, at most one `FileChange` is
published in total (second conjunct) — at most one of the two events is
accepted, and an accepted single-path event publishes exactly one value. -/
theorem C6_debounce_behavior :
    (∀ (ws : WatcherState) (now : Nat) (e : NotifyEvent),
      (watcherStep ws now e).2 ≠ [] →
      debounceMillis ≤ now - ws.lastEvent) ∧
    (∀ (last t1 t2 : Nat) (cf : List Str) (p1 p2 : Str),
      t2 - t1 < debounceMillis →
      ((watcherStep ⟨last, cf⟩ t1 ⟨NotifyKind.modify, [p1]⟩).2 ++
        (watcherStep (watcherStep ⟨last, cf⟩ t1
            ⟨NotifyKind.modify, [p1]⟩).1 t2
          ⟨NotifyKind.modify, [p2]⟩).2).length ≤ 1) := by
  constructor
  · intro ws now e hne
    unfold watcherStep at hne
    by_cases hd : now - ws.lastEvent < debounceMillis
    · rw [if_pos hd] at hne
      exact absurd rfl hne
    · omega
  · intro last t1 t2 cf p1 p2 hwin
    by_cases h1 : t1 - last < debounceMillis
    · have e1 : watcherStep ⟨last, cf⟩ t1 ⟨NotifyKind.modify, [p1]⟩ =
          (⟨last, cf⟩, []) := by
        unfold watcherStep
        rw [if_pos h1]
      rw [e1]
      simp only [List.nil_append]
      exact watcherStep_single_pub ⟨last, cf⟩ t2 p2
    · have e1 : watcherStep ⟨last, cf⟩ t1 ⟨NotifyKind.modify, [p1]⟩ =
          (⟨t1, [p1] ++ cf⟩,
            [⟨p1, if hasCssPath [p1] = true then ChangeType.cssChange
              else ChangeType.modify⟩]) := by
        unfold watcherStep classifyEvent
        rw [if_neg h1]
        by_cases hcss : hasCssPath [p1] = true <;> simp [hcss]
      rw [e1]
      simp only
      have e2 : watcherStep (⟨t1, [p1] ++ cf⟩ : WatcherState) t2
          ⟨NotifyKind.modify, [p2]⟩ = (⟨t1, [p1] ++ cf⟩, []) := by
        unfold watcherStep
        rw [if_pos (by simpa using hwin)]
      rw [e2]
      simp

/-- C6, witness: both conjuncts of the amended claim at concrete inputs. -/
theorem C6_witness :
    debounceMillis ≤ 150 - 0 ∧
    ((watcherStep ⟨0, []⟩ 10 ⟨NotifyKind.modify, ["a.html".data]⟩).2 ++
      (watcherStep (watcherStep ⟨0, []⟩ 10
          ⟨NotifyKind.modify, ["a.html".data]⟩).1 80
        ⟨NotifyKind.modify, ["b.html".data]⟩).2).length ≤ 1 :=
  ⟨C6_debounce_behavior.1 ⟨0, []⟩ 150 ⟨NotifyKind.modify, ["a.html".data]⟩
      (by decide),
    C6_debounce_behavior.2 0 10 80 [] "a.html".data "b.html".data
      (by decide)⟩

/-- C7, counterexample.  The claim tags any event touching a CSS-extension
path as `CssChange`; the code inspects paths only for modify events, so a
creation event touching `style.css` is tagged `Create`, not `CssChange`. -/
theorem C7_counterexample :
    classifyEvent ⟨NotifyKind.create, ["style.css".data]⟩ =
      some ChangeType.create ∧
    classifyEvent ⟨NotifyKind.create, ["style.css".data]⟩ ≠
      some ChangeType.cssChange := ⟨by decide, by decide⟩

/-- C7, amended.  Classification of accepted events: creations are tagged
`Create` and removals `Delete` unconditionally; only modify events are
inspected for CSS paths, yielding `CssChange` when some touched path has
the `css` extension and the generic `Modify` otherwise — so a modification
to a `.css` file is never tagged as a generic `Modify`; events of any other
kind are dropped, not tagged. -/
theorem C7_classification :
    (∀ paths : List Str, classifyEvent ⟨NotifyKind.modify, paths⟩ =
      some (if hasCssPath paths then ChangeType.cssChange
        else ChangeType.modify)) ∧
    (∀ paths : List Str, classifyEvent ⟨NotifyKind.create, paths⟩ =
      some ChangeType.create) ∧
    (∀ paths : List Str, classifyEvent ⟨NotifyKind.remove, paths⟩ =
      some ChangeType.delete) ∧
    (∀ paths : List Str, classifyEvent ⟨NotifyKind.any, paths⟩ = none ∧
      classifyEvent ⟨NotifyKind.access, paths⟩ = none ∧
      classifyEvent ⟨NotifyKind.other, paths⟩ = none) := by
  refine ⟨fun paths => ?_, fun _ => rfl, fun _ => rfl,
    fun _ => ⟨rfl, rfl, rfl⟩⟩
  by_cases hcss : hasCssPath paths = true <;> simp [classifyEvent, hcss]

/-- C8.  The path cache memoizes every resolution: after any call to
`find_component_file`, the cache maps the query's key to exactly the
returned result — a recorded path on a hit, a recorded `None` on a miss —
and an immediately repeated call for the same `(currentDir, name)` pair
returns that recorded result with the cache unchanged and zero filesystem
probes or walk steps. -/
theorem C8_pathCache_memoization :
    ∀ (fs : FS) (componentsDir : Str) (currentComponentDir : Option Str)
      (name : Str) (cache : PathCache),
      lookupAssoc
        (findComponentFile fs componentsDir currentComponentDir name
          cache).cache (cacheKey currentComponentDir name) =
        some (findComponentFile fs componentsDir currentComponentDir name
          cache).path ∧
      findComponentFile fs componentsDir currentComponentDir name
        (findComponentFile fs componentsDir currentComponentDir name
          cache).cache =
        ⟨(findComponentFile fs componentsDir currentComponentDir name
            cache).path,
          (findComponentFile fs componentsDir currentComponentDir name
            cache).cache, 0⟩ := by
  intro fs cdir d name cache
  cases hlk : lookupAssoc cache (cacheKey d name) with
  | some val =>
    rw [findCF_hit fs cdir d name cache val hlk]
    exact ⟨hlk, findCF_hit fs cdir d name cache val hlk⟩
  | none =>
    have hmc := findCF_miss_cache fs cdir d name cache hlk
    have hlook : lookupAssoc
        (findComponentFile fs cdir d name cache).cache
        (cacheKey d name) =
        some (findComponentFile fs cdir d name cache).path := by
      rw [hmc]
      simp [insertAssoc, lookupAssoc]
    exact ⟨hlook, findCF_hit fs cdir d name _ _ hlook⟩

/-- C9.  On input containing no match of the component-tag pattern, the
renderer returns the input unchanged (together with its visited set and
state): re-rendering fully-rendered output that contains no component tags
is a no-op. -/
theorem C9_no_tags_identity (fs : FS) (componentsDir : Str) (fuel : Nat)
    (content : Str) (visited : List Str)
    (currentComponentDir : Option Str) (st : GenState)
    (h : findTag content = none) :
    generateHtmlF fs componentsDir (fuel + 1) content visited
      currentComponentDir st = some (content, visited, st) :=
  genF_step_done fs componentsDir fuel content visited currentComponentDir
    st h

/-- C9, witness: a tag-free document renders to itself. -/
theorem C9_witness :
    findTag "<p>done</p>".data = none ∧
    generateHtmlF fsEmpty "comps".data (0 + 1) "<p>done</p>".data [] none
      ⟨[], []⟩ = some ("<p>done</p>".data, [], ⟨[], []⟩) :=
  ⟨by decide,
    C9_no_tags_identity fsEmpty "comps".data 0 "<p>done</p>".data [] none
      ⟨[], []⟩ (by decide)⟩

/-- C10, counterexample.  The claim promises that once a name has been
expanded, every later inclusion of it within the same generator lifetime is
answered from the content cache with the identical cached string.  In the
double-inclusion render over `fsDiamond`, the first inclusion of `A` is
expanded and cached, yet the second inclusion in the very same render is
replaced by the circular-dependency placeholder — the visited check of
`generate_html` fires before `load_component` (and hence the cache) is ever
reached — even though the content cache holds the entry `A ↦ hello` at that
moment, as the final state confirms. -/
theorem C10_counterexample :
    (generateHtmlF fsDiamond "comps".data 8 pageTwiceA [] none
      ⟨[], []⟩).map
      (fun r => (r.1, lookupAssoc r.2.2.contentCache "A".data)) =
    some ("hello<!-- Circular dependency: A -->".data,
      some "hello".data) := by decide

/-- C10, amended.  The content cache is keyed by the bare component name,
but it is consulted only inside `load_component`, which the renderer invokes
only for names not currently in the visited set.  Whenever `load_component`
runs for a name that has a cache entry, it returns the identical cached
string for any current component directory, any fuel and even any
filesystem, leaving the whole state (the path cache included) untouched and
thus performing no path resolution at all (first conjunct).  A freshly
inserted rendering is immediately retrievable under the bare name alone
(second conjunct).  However, a later inclusion of the name within the same
top-level render — while the name is still in the never-shrinking visited
set — is replaced by the circular-dependency placeholder before the content
cache is consulted, even when the cache holds the name (third conjunct). -/
theorem C10_contentCache_keyed_by_name :
    (∀ (st : GenState) (name cached : Str),
      lookupAssoc st.contentCache name = some cached →
      ∀ (fs : FS) (componentsDir : Str) (fuel : Nat) (visited : List Str)
        (currentComponentDir : Option Str),
        loadComponentF fs componentsDir fuel name visited
          currentComponentDir st = some (cached, visited, st)) ∧
    (∀ (m : List (Str × Str)) (name rendered : Str),
      lookupAssoc (insertAssoc m name rendered) name = some rendered) ∧
    (∀ (fs : FS) (componentsDir : Str) (fuel : Nat) (content : Str)
      (visited : List Str) (currentComponentDir : Option Str)
      (st : GenState) (fullMatch componentName cached : Str),
      findTag content = some (fullMatch, componentName) →
      componentName ∈ visited →
      lookupAssoc st.contentCache componentName = some cached →
      generateHtmlF fs componentsDir (fuel + 1) content visited
        currentComponentDir st =
      generateHtmlF fs componentsDir fuel
        (replaceAll fullMatch (circComment componentName) content)
        visited currentComponentDir st) := by
  refine ⟨?_, ?_, ?_⟩
  · intro st name cached h fs cdir fuel v d
    exact loadF_cache_hit fs cdir fuel name v d st cached h
  · intro m name ren
    simp [insertAssoc, lookupAssoc]
  · intro fs cdir fuel c v d st full name cached hft hv _
    exact genF_step_flag fs cdir fuel c v d st full name hft hv

/-- C10, witness: a cached component is served identically under a foreign
current directory and even an empty filesystem, with the state untouched;
and a re-inclusion whose name is on the active visited path is replaced by
the circular placeholder although the content cache holds the name. -/
theorem C10_witness :
    (loadComponentF fsEmpty "comps".data 3 "A".data []
      (some "elsewhere".data) ⟨[("A".data, "hi".data)], []⟩ =
      some ("hi".data, [], ⟨[("A".data, "hi".data)], []⟩)) ∧
    (generateHtmlF fsDiamond "comps".data (0 + 1) pageIncludeA ["A".data]
      none ⟨[("A".data, "hello".data)], []⟩ =
    generateHtmlF fsDiamond "comps".data 0
      (replaceAll "<component name=\"A\"/>".data (circComment "A".data)
        pageIncludeA) ["A".data] none ⟨[("A".data, "hello".data)], []⟩) :=
  ⟨C10_contentCache_keyed_by_name.1 ⟨[("A".data, "hi".data)], []⟩ "A".data
      "hi".data (by decide) fsEmpty "comps".data 3 []
      (some "elsewhere".data),
    C10_contentCache_keyed_by_name.2.2 fsDiamond "comps".data 0 pageIncludeA
      ["A".data] none ⟨[("A".data, "hello".data)], []⟩
      "<component name=\"A\"/>".data "A".data "hello".data (by decide)
      (by decide) (by decide)⟩
